import Mathlib

/-!
Verification of the `pree` process-tree viewer (src/pree.go) against its
natural-language specification.

The Go program is shallowly embedded:
* the `Process` struct becomes the rose tree `PTree` (machine `int` → `Int`,
  `float32` → `ℚ`, exact real arithmetic standing in for IEEE rounding);
* the in-place cache mutation of `CalcAccumRSS` / `CalcAccumCPU` becomes
  explicit state passing: each function returns the computed value together
  with the updated tree;
* `ReadProc` / `ReadProcs` over the mutable `map[int]*Process` become a
  fuel-indexed transition function over an association-list store;
* the raw `/proc` reads are modelled as a record source function, following
  the external-interface boundary the program's design draws around them.
-/

namespace Pree

/-- The `Process` struct of pree.go: pid, parent pid, instantaneous RSS
(kibibytes), instantaneous CPU fraction, the two memoized aggregate caches
(`AccumRSS`, `AccumCPU`, zero-valued until first computed, as Go zero
values), the display name and the owned children. -/
inductive PTree : Type where
  | node (pid : Nat) (ppid : Nat) (rss : Int) (cpu : ℚ)
         (accumRSS : Int) (accumCPU : ℚ)
         (name : String) (children : List PTree)
  deriving Inhabited

namespace PTree

def pidOf : PTree → Nat
  | node p _ _ _ _ _ _ _ => p

def rssOf : PTree → Int
  | node _ _ r _ _ _ _ _ => r

def cpuOf : PTree → ℚ
  | node _ _ _ c _ _ _ _ => c

def accumRSSOf : PTree → Int
  | node _ _ _ _ a _ _ _ => a

def accumCPUOf : PTree → ℚ
  | node _ _ _ _ _ a _ _ => a

def nameOf : PTree → String
  | node _ _ _ _ _ _ n _ => n

def childrenOf : PTree → List PTree
  | node _ _ _ _ _ _ _ cs => cs

end PTree

mutual
/-- Method `(*Process).CalcAccumRSS` (pree.go:33-44).  The Go method returns the
cached `AccumRSS` when it is `> 0`; otherwise it sets `AccumRSS = RSS` and
adds each child's `CalcAccumRSS()` in order.  The in-place mutation is made
explicit: the result is the returned value paired with the tree after the
cache updates. -/
def calcAccumRSS : PTree → Int × PTree
  | .node pid ppid rss cpu aR aC name cs =>
    if 0 < aR then (aR, .node pid ppid rss cpu aR aC name cs)
    else
      let p := calcAccumRSSKids cs
      (rss + p.1, .node pid ppid rss cpu (rss + p.1) aC name p.2)

/-- The `for _, child := range proc.Children` loop of `CalcAccumRSS`,
summing the children's accumulated RSS left to right. -/
def calcAccumRSSKids : List PTree → Int × List PTree
  | [] => (0, [])
  | c :: cs =>
    let a := calcAccumRSS c
    let b := calcAccumRSSKids cs
    (a.1 + b.1, a.2 :: b.2)
end

mutual
/-- Method `(*Process).CalcAccumCPU` (pree.go:46-57), same shape as
`calcAccumRSS` with the `float32` CPU fractions modelled in `ℚ`. -/
def calcAccumCPU : PTree → ℚ × PTree
  | .node pid ppid rss cpu aR aC name cs =>
    if 0 < aC then (aC, .node pid ppid rss cpu aR aC name cs)
    else
      let p := calcAccumCPUKids cs
      (cpu + p.1, .node pid ppid rss cpu aR (cpu + p.1) name p.2)

/-- The children loop of `CalcAccumCPU`. -/
def calcAccumCPUKids : List PTree → ℚ × List PTree
  | [] => (0, [])
  | c :: cs =>
    let a := calcAccumCPU c
    let b := calcAccumCPUKids cs
    (a.1 + b.1, a.2 :: b.2)
end

mutual
/-- The mathematical subtree RSS sum: `rss` of the node plus the sums of
all children, the specification's `Σ rss over all processes in the tree`. -/
def sumRss : PTree → Int
  | .node _ _ rss _ _ _ _ cs => rss + sumRssKids cs

def sumRssKids : List PTree → Int
  | [] => 0
  | c :: cs => sumRss c + sumRssKids cs
end

mutual
/-- The mathematical subtree CPU sum. -/
def sumCpu : PTree → ℚ
  | .node _ _ _ cpu _ _ _ cs => cpu + sumCpuKids cs

def sumCpuKids : List PTree → ℚ
  | [] => 0
  | c :: cs => sumCpu c + sumCpuKids cs
end

mutual
/-- A tree is fresh when every cache field still holds the Go zero value,
i.e. no aggregate has been computed yet — the state of every `Process`
right after `ReadProcs` finishes building the tree. -/
def fresh : PTree → Bool
  | .node _ _ _ _ aR aC _ cs => aR == 0 && aC == 0 && freshKids cs

def freshKids : List PTree → Bool
  | [] => true
  | c :: cs => fresh c && freshKids cs
end

mutual
/-- Variant of `CalcAccumRSS` instrumented with a cache-miss counter:
identical to
`calcAccumRSS` except that it additionally reports how many nodes executed
the summation body instead of returning a cached value.  This is the
"counting instrumented data source" observation point the specification
uses to make recomputation observable. -/
def calcAccumRSSN : PTree → Int × PTree × Nat
  | .node pid ppid rss cpu aR aC name cs =>
    if 0 < aR then (aR, .node pid ppid rss cpu aR aC name cs, 0)
    else
      let p := calcAccumRSSNKids cs
      (rss + p.1, .node pid ppid rss cpu (rss + p.1) aC name p.2.1, p.2.2 + 1)

/-- Children loop of the instrumented `CalcAccumRSS`. -/
def calcAccumRSSNKids : List PTree → Int × List PTree × Nat
  | [] => (0, [], 0)
  | c :: cs =>
    let a := calcAccumRSSN c
    let b := calcAccumRSSNKids cs
    (a.1 + b.1, a.2.1 :: b.2.1, a.2.2 + b.2.2)
end

mutual
/-- Variant of `CalcAccumCPU` instrumented with a cache-miss counter. -/
def calcAccumCPUN : PTree → ℚ × PTree × Nat
  | .node pid ppid rss cpu aR aC name cs =>
    if 0 < aC then (aC, .node pid ppid rss cpu aR aC name cs, 0)
    else
      let p := calcAccumCPUNKids cs
      (cpu + p.1, .node pid ppid rss cpu aR (cpu + p.1) name p.2.1, p.2.2 + 1)

/-- Children loop of the instrumented `CalcAccumCPU`. -/
def calcAccumCPUNKids : List PTree → ℚ × List PTree × Nat
  | [] => (0, [], 0)
  | c :: cs =>
    let a := calcAccumCPUN c
    let b := calcAccumCPUNKids cs
    (a.1 + b.1, a.2.1 :: b.2.1, a.2.2 + b.2.2)
end

mutual
/-- Two trees are related by `TreePerm` when they carry the same data at
every node and differ only in the order of children lists — i.e. the same
snapshot traversed with children visited in a different order. -/
inductive TreePerm : PTree → PTree → Prop where
  | node : ∀ pid ppid rss cpu aR aC name cs cs', KidsPerm cs cs' →
      TreePerm (.node pid ppid rss cpu aR aC name cs)
               (.node pid ppid rss cpu aR aC name cs')

/-- Permutation of children lists, with elements themselves related by
`TreePerm`. -/
inductive KidsPerm : List PTree → List PTree → Prop where
  | nil : KidsPerm [] []
  | cons : ∀ {a b l₁ l₂}, TreePerm a b → KidsPerm l₁ l₂ →
      KidsPerm (a :: l₁) (b :: l₂)
  | swap : ∀ {a a' b b' l₁ l₂}, TreePerm a a' → TreePerm b b' → KidsPerm l₁ l₂ →
      KidsPerm (a :: b :: l₁) (b' :: a' :: l₂)
  | trans : ∀ {l₁ l₂ l₃}, KidsPerm l₁ l₂ → KidsPerm l₂ l₃ → KidsPerm l₁ l₃
end

/-- Comparator `SortProcs.Less` (pree.go:69-76): the configured
comparison, negated
wholesale when `Reverse` is set. -/
def sortLess {α : Type} (sf : α → α → Bool) (rev : Bool) (a b : α) : Bool :=
  if rev then !(sf a b) else sf a b

/-- The `--sort rss` comparator installed by `main` (pree.go:281-283):
`a.CalcAccumRSS() < b.CalcAccumRSS()`. -/
def sortFuncRSS (a b : PTree) : Bool :=
  decide ((calcAccumRSS a).1 < (calcAccumRSS b).1)

/-- The `--sort cpu` comparator installed by `main` (pree.go:285-287):
`a.CalcAccumCPU() < b.CalcAccumCPU()`. -/
def sortFuncCPU (a b : PTree) : Bool :=
  decide ((calcAccumCPU a).1 < (calcAccumCPU b).1)

/-- One insertion step of Go `sort.Stable`'s insertion-sort core, working
on the reversed sorted prefix `racc` (head of `racc` = left neighbour of
the new element): the new element `x` swaps leftwards past `y` exactly
while `Less(x, y)` holds, matching the loop
`for i := j; i > a && data.Less(i, i-1); i-- { swap }`. -/
def insRev {α : Type} (less : α → α → Bool) (x : α) : List α → List α
  | [] => [x]
  | y :: ys => if less x y then y :: insRev less x ys else x :: y :: ys

/-- Model of Go's `sort.Stable` (standard library, external to pree.go):
elements are processed left to right, each bubbled into place in the
already-sorted prefix.  This is exactly Go's algorithm for slices of at
most one block (≤ 20 elements) and agrees with it on any slice whenever
`less` is a strict weak ordering, by the documented stability contract. -/
def stableSortGo {α : Type} (less : α → α → Bool) (l : List α) : List α :=
  (l.foldl (fun racc x => insRev less x racc) []).reverse

/-- A raw process record: the parsed fields `ReadProc` obtains for one pid
from `/proc/[pid]/stat` and `/proc/[pid]/exe` — parent pid, resident page
count, user-mode ticks, kernel-mode ticks, start time in ticks, the
command name from the stat line, and the resolved executable path when
the readlink succeeds.  The string parsing of `/proc` files is the
external RecordSource boundary of the design; records arrive parsed. -/
structure PRec where
  ppid : Nat
  rssPages : Int
  utime : Int
  stime : Int
  starttime : Int
  comm : String
  exe : Option String
  deriving DecidableEq

/-- Ambient machine context, assumed stable across the snapshot: the page
size reported by `os.Getpagesize()`, the tick counters of the first
`/proc/stat` line (`fields[1:]`), and `runtime.NumCPU()`.  Go's `int64`/`int`
division truncates toward zero, hence `Int.tdiv` below. -/
structure Ctx where
  pageSize : Int
  clockTicks : List Int
  numCPU : Int

/-- Function `TicksSinceBoot` (pree.go:112-131): the sum of all tick
fields of the
first `/proc/stat` line, divided by the number of processor cores (Go
integer division on `int64`). -/
def ticksSinceBoot (c : Ctx) : Int :=
  Int.tdiv c.clockTicks.sum c.numCPU

/-- The CPU fraction computed at pree.go:165:
`float32(uTime+sTime) / (float32(totalTime) - float32(startTime))`,
with the `float32` arithmetic carried out exactly in `ℚ`. -/
def cpuFrac (c : Ctx) (r : PRec) : ℚ :=
  ((r.utime + r.stime : Int) : ℚ) / ((ticksSinceBoot c : ℚ) - (r.starttime : ℚ))

/-- The RSS in kibibytes computed at pree.go:151:
`(rssPages * os.Getpagesize()) / 1024`. -/
def rssKiB (c : Ctx) (r : PRec) : Int :=
  Int.tdiv (r.rssPages * c.pageSize) 1024

/-- Model of `path.Base` for the ordinary absolute paths readlink
returns: the
last `/`-separated component. -/
def pathBase (p : String) : String :=
  ((p.splitOn "/").getLast?).getD p

/-- The display name (pree.go:167-172): the basename of the resolved
executable, falling back to the stat-line command name when the readlink
failed. -/
def displayName (r : PRec) : String :=
  match r.exe with
  | some p => pathBase p
  | none => r.comm

/-- One built `Process` as held by the pid-keyed store: children are
recorded by pid, faithful to the pointer graph (each pid names exactly one
`Process`).  The aggregate caches are zero until rendering and play no
role during the build. -/
structure PEntry where
  ppid : Nat
  rss : Int
  cpu : ℚ
  name : String
  children : List Nat
  deriving DecidableEq

/-- The `Processes` map (pree.go:84), as an association list in insertion
order; keys are unique (Go map semantics), and the insertion order carries
the proof-relevant fact that parents are materialized before children. -/
abbrev Store := List (Nat × PEntry)

/-- Go map lookup `procs[pid]`. -/
def lookupS : Store → Nat → Option PEntry
  | [], _ => none
  | kv :: s, p => if kv.1 = p then some kv.2 else lookupS s p

/-- The set (list) of pids present in the store. -/
def keysS (s : Store) : List Nat :=
  s.map Prod.fst

/-- Go map insert `procs[pid] = proc` for a pid not yet present. -/
def insertS (s : Store) (p : Nat) (e : PEntry) : Store :=
  s ++ [(p, e)]

/-- Mutation `parent.Children = append(parent.Children, proc)`
(pree.go:185): the
entry keyed `par` gains `ch` at the end of its children. -/
def addChild (s : Store) (par ch : Nat) : Store :=
  s.map (fun kv =>
    if kv.1 = par then (kv.1, { kv.2 with children := kv.2.children ++ [ch] })
    else kv)

/-- The `Process` fields `ReadProc` fills before linking (pree.go:138-172),
with empty children. -/
def mkEntry (c : Ctx) (r : PRec) : PEntry :=
  { ppid := r.ppid, rss := rssKiB c r, cpu := cpuFrac c r,
    name := displayName r, children := [] }

/-- Result of a `ReadProc` call: success, a Go error return, or fuel
exhaustion (the model's image of unbounded recursion).  All three carry
the store as mutated so far, since the Go map is updated in place. -/
inductive RRes where
  | ok (s : Store)
  | err (s : Store)
  | oof (s : Store)
  deriving DecidableEq

/-- The store carried by any result. -/
def RRes.store : RRes → Store
  | ok s => s
  | err s => s
  | oof s => s

/-- Function `ReadProc` (pree.go:133-190), fuel-indexed.  Faithful
control flow:
return the existing entry if the pid is present; fail if the record source
has no record (the `ReadFile` error return); otherwise build the entry,
and when `PPid ≠ 0` resolve the parent first — recursively when absent —
then append this pid to the parent's children and only then insert it. -/
def readProc (recs : Nat → Option PRec) (c : Ctx) :
    Nat → Store → Nat → RRes
  | 0, s, _ => .oof s
  | fuel+1, s, pid =>
    match lookupS s pid with
    | some _ => .ok s
    | none =>
      match recs pid with
      | none => .err s
      | some r =>
        if r.ppid = 0 then .ok (insertS s pid (mkEntry c r))
        else
          match lookupS s r.ppid with
          | some _ => .ok (insertS (addChild s r.ppid pid) pid (mkEntry c r))
          | none =>
            match readProc recs c fuel s r.ppid with
            | .ok s' => .ok (insertS (addChild s' r.ppid pid) pid (mkEntry c r))
            | .err s' => .err s'
            | .oof s' => .oof s'

/-- Function `ReadProcs` (pree.go:192-206): resolve every enumerated pid
in order,
logging and otherwise ignoring per-pid failures. -/
def readProcs (recs : Nat → Option PRec) (c : Ctx) (fuel : Nat)
    (pids : List Nat) (s : Store) : Store :=
  pids.foldl (fun st pid => (readProc recs c fuel st pid).store) s

/-- Total number of times `p` occurs across all children sequences. -/
def countChildren (s : Store) (p : Nat) : Nat :=
  (s.map (fun kv => kv.2.children.count p)).sum

/-- The store invariant maintained by the builder:
keys are unique; every entry with a parent was inserted after its parent
(so parent links point strictly backwards in insertion order); every pid
in a children list belongs to the store and names that parent as its
`ppid`; and every stored pid occurs across all children lists exactly once
when it has a parent and never when it is a root. -/
structure Inv (s : Store) : Prop where
  nodup : (keysS s).Nodup
  parentEarlier : ∀ i (h : i < s.length), (s.get ⟨i, h⟩).2.ppid ≠ 0 →
      (s.get ⟨i, h⟩).2.ppid ∈ keysS (s.take i)
  childLink : ∀ kv ∈ s, ∀ ch ∈ kv.2.children,
      ∃ e, lookupS s ch = some e ∧ e.ppid = kv.1
  childCount : ∀ kv ∈ s,
      countChildren s kv.1 = (if kv.2.ppid = 0 then 0 else 1)

/-- Store evolution during the build: every present entry keeps its pid,
parent, metrics and name, and its children sequence is only ever extended
at the end. -/
def SubS (s s' : Store) : Prop :=
  ∀ p e, lookupS s p = some e →
    ∃ tl, lookupS s' p = some { e with children := e.children ++ tl }

/-- Position of the first occurrence of a key, as `lookupS` finds it. -/
def idxS : Store → Nat → Nat
  | [], _ => 0
  | kv :: s, p => if kv.1 = p then 0 else idxS s p + 1

/-- Proper-ancestor relation inside a built store: one or more upward
parent-link steps. -/
inductive AncS (s : Store) : Nat → Nat → Prop where
  | parent : ∀ {a b : Nat} {e : PEntry}, lookupS s b = some e →
      e.ppid ≠ 0 → e.ppid = a → AncS s a b
  | trans : ∀ {a b d : Nat}, AncS s a b → AncS s b d → AncS s a d

/-- The specification's synthetic cyclic record set: pid 5's parent is
pid 7 and pid 7's parent is pid 5. -/
def recsCyc : Nat → Option PRec := fun p =>
  if p = 5 then some ⟨7, 0, 0, 0, 0, "a", none⟩
  else if p = 7 then some ⟨5, 0, 0, 0, 0, "b", none⟩
  else none

/-- A pid is resolvable at depth `n` when its ancestor chain through the
record source reaches the pid-0 sentinel in `n` parent steps. -/
inductive ResolvableN (recs : Nat → Option PRec) : Nat → Nat → Prop where
  | root : ∀ {p : Nat} {r : PRec}, recs p = some r → r.ppid = 0 →
      ResolvableN recs p 0
  | step : ∀ {p : Nat} {r : PRec} {n : Nat}, recs p = some r →
      r.ppid ≠ 0 → ResolvableN recs r.ppid n → ResolvableN recs p (n + 1)

/-- Extract the `Process` tree rooted at `p` from the built store, to
recursion depth `d` (the parent-before-child insertion order bounds all
real depths by the store size); both aggregate caches carry the Go zero
values, exactly as after `ReadProcs`. -/
def toTree (s : Store) : Nat → Nat → PTree
  | _, 0 => .node 0 0 0 0 0 0 "" []
  | p, d + 1 =>
    match lookupS s p with
    | none => .node p 0 0 0 0 0 "" []
    | some e => .node p e.ppid e.rss e.cpu 0 0 e.name
        (e.children.map (fun q => toTree s q d))

/-- Rendering options (`Options`, pree.go:14-19): column toggles, sort
direction, and the injected comparison function. -/
structure ROpts where
  showRSS : Bool
  showCPU : Bool
  reverse : Bool
  sortFunc : PTree → PTree → Bool

/-- Function `ShowProcess` (pree.go:96-110): the per-process summary
suffix in its
four column configurations.  `PrettySize` and the `%.01f` percentage
rendering are numeric string formatting; the model takes them as the
parameters `fmtSize` and `fmtPct` and keeps the surrounding layout
literal. -/
def showProcess (fmtSize : Int → String) (fmtPct : ℚ → String)
    (opts : ROpts) (t : PTree) : String :=
  if opts.showCPU && opts.showRSS then
    "(#" ++ toString t.pidOf ++ "; " ++ fmtSize t.rssOf ++ " "
      ++ fmtPct (t.cpuOf * 100) ++ "%) -- "
      ++ fmtSize (calcAccumRSS t).1 ++ " "
      ++ fmtPct ((calcAccumCPU t).1 * 100) ++ "%"
  else if opts.showCPU then
    "(#" ++ toString t.pidOf ++ "; " ++ fmtPct (t.cpuOf * 100) ++ "%) -- "
      ++ fmtPct ((calcAccumCPU t).1 * 100) ++ "%"
  else if opts.showRSS then
    "(#" ++ toString t.pidOf ++ "; " ++ fmtSize t.rssOf ++ " -- "
      ++ fmtSize (calcAccumRSS t).1
  else
    "(#" ++ toString t.pidOf ++ ")"

/-- One rendered line of the fancy tree, structured by the printf
arguments of pree.go:230: indentation prefix, connector, dashes, displayed
name, whether the `╤` joint glyph of a process with children is used, and
the summary suffix. -/
structure RLine where
  pfx : String
  conn : String
  dashes : String
  pname : String
  joint : Bool
  suffix : String

/-- The actual printed text of a line (`"%s%s%s%s ╤ %s"` respectively
`"%s%s%s%s %s"`, pree.go:225-227). -/
def RLine.render (l : RLine) : String :=
  l.pfx ++ l.conn ++ l.dashes ++ l.pname
    ++ (if l.joint then " ╤ " else " ") ++ l.suffix

/-- Function `PrintFancyTree` (pree.go:208-245): emit the node's line,
stably sort
the children with `SortProcs`, and recurse with the prefix extended by
`bar`, one space per character of the displayed name (`len(PrettyName)`,
which for the ASCII names of processes equals the printed width), and the
pad; the last child gets `└` and a blank bar, the others `├` and `│`.
The `attach` carries the membership evidence the termination argument
needs and does not change which children are rendered. -/
def printFancyTree (fmtSize : Int → String) (fmtPct : ℚ → String)
    (opts : ROpts) : PTree → String → String → String → List RLine
  | .node pid ppid rss cpu aR aC name cs, pfx, bar, conn =>
    let t := PTree.node pid ppid rss cpu aR aC name cs
    let dashes := if pfx = "" then "" else "─╴"
    let subPad := if pfx = "" then " " else "   "
    let kids := stableSortGo
      (fun a b => sortLess opts.sortFunc opts.reverse a.1 b.1) cs.attach
    let subPfx := pfx ++ bar ++ String.mk (List.replicate name.length ' ')
      ++ subPad
    { pfx := pfx, conn := conn, dashes := dashes, pname := name,
      joint := decide (0 < cs.length),
      suffix := showProcess fmtSize fmtPct opts t } ::
      (kids.enum.attach.map (fun ic =>
        printFancyTree fmtSize fmtPct opts ic.1.2.1 subPfx
          (if ic.1.1 = kids.length - 1 then " " else "│")
          (if ic.1.1 = kids.length - 1 then "└" else "├"))).flatten
  termination_by t _ _ _ => sizeOf t
  decreasing_by
    simp_wf
    have h1 := List.sizeOf_lt_of_mem ic.1.2.2
    omega

/-- Function `PrintFancyRoot` (pree.go:247-249): the root starts with
empty prefix,
bar and connector. -/
def printFancyRoot (fmtSize : Int → String) (fmtPct : ℚ → String)
    (opts : ROpts) (t : PTree) : List RLine :=
  printFancyTree fmtSize fmtPct opts t "" "" ""

mutual
/-- On a fresh tree the first `CalcAccumRSS` call returns the true subtree
RSS sum. -/
theorem calcAccumRSS_fst_of_fresh :
    ∀ t, fresh t = true → (calcAccumRSS t).1 = sumRss t
  | .node pid ppid rss cpu aR aC name cs, h => by
    simp only [fresh, Bool.and_eq_true, beq_iff_eq] at h
    obtain ⟨⟨h1, _⟩, h3⟩ := h
    subst h1
    simp only [calcAccumRSS, sumRss]
    rw [if_neg (by omega)]
    simp only [calcAccumRSSKids_fst_of_fresh cs h3]

theorem calcAccumRSSKids_fst_of_fresh :
    ∀ l, freshKids l = true → (calcAccumRSSKids l).1 = sumRssKids l
  | [], _ => rfl
  | c :: cs, h => by
    simp only [freshKids, Bool.and_eq_true] at h
    simp only [calcAccumRSSKids, sumRssKids]
    rw [calcAccumRSS_fst_of_fresh c h.1, calcAccumRSSKids_fst_of_fresh cs h.2]
end

mutual
/-- On a fresh tree the first `CalcAccumCPU` call returns the true subtree
CPU sum. -/
theorem calcAccumCPU_fst_of_fresh :
    ∀ t, fresh t = true → (calcAccumCPU t).1 = sumCpu t
  | .node pid ppid rss cpu aR aC name cs, h => by
    simp only [fresh, Bool.and_eq_true, beq_iff_eq] at h
    obtain ⟨⟨_, h2⟩, h3⟩ := h
    subst h2
    simp only [calcAccumCPU, sumCpu]
    rw [if_neg (by simp)]
    simp only [calcAccumCPUKids_fst_of_fresh cs h3]

theorem calcAccumCPUKids_fst_of_fresh :
    ∀ l, freshKids l = true → (calcAccumCPUKids l).1 = sumCpuKids l
  | [], _ => rfl
  | c :: cs, h => by
    simp only [freshKids, Bool.and_eq_true] at h
    simp only [calcAccumCPUKids, sumCpuKids]
    rw [calcAccumCPU_fst_of_fresh c h.1, calcAccumCPUKids_fst_of_fresh cs h.2]
end

mutual
/-- The instrumented `calcAccumRSSN` agrees with `calcAccumRSS` on the
returned value and the updated tree. -/
theorem calcAccumRSSN_agree :
    ∀ t, (calcAccumRSSN t).1 = (calcAccumRSS t).1 ∧
         (calcAccumRSSN t).2.1 = (calcAccumRSS t).2
  | .node pid ppid rss cpu aR aC name cs => by
    simp only [calcAccumRSSN, calcAccumRSS]
    by_cases h : 0 < aR
    · simp [h]
    · simp only [if_neg h]
      have := calcAccumRSSNKids_agree cs
      exact ⟨by rw [this.1], by rw [this.1, this.2]⟩

theorem calcAccumRSSNKids_agree :
    ∀ l, (calcAccumRSSNKids l).1 = (calcAccumRSSKids l).1 ∧
         (calcAccumRSSNKids l).2.1 = (calcAccumRSSKids l).2
  | [] => ⟨rfl, rfl⟩
  | c :: cs => by
    simp only [calcAccumRSSNKids, calcAccumRSSKids]
    have h1 := calcAccumRSSN_agree c
    have h2 := calcAccumRSSNKids_agree cs
    exact ⟨by rw [h1.1, h2.1], by rw [h1.2, h2.2]⟩
end

mutual
/-- The instrumented `calcAccumCPUN` agrees with `calcAccumCPU` on the
returned value and the updated tree. -/
theorem calcAccumCPUN_agree :
    ∀ t, (calcAccumCPUN t).1 = (calcAccumCPU t).1 ∧
         (calcAccumCPUN t).2.1 = (calcAccumCPU t).2
  | .node pid ppid rss cpu aR aC name cs => by
    simp only [calcAccumCPUN, calcAccumCPU]
    by_cases h : 0 < aC
    · simp [h]
    · simp only [if_neg h]
      have := calcAccumCPUNKids_agree cs
      exact ⟨by rw [this.1], by rw [this.1, this.2]⟩

theorem calcAccumCPUNKids_agree :
    ∀ l, (calcAccumCPUNKids l).1 = (calcAccumCPUKids l).1 ∧
         (calcAccumCPUNKids l).2.1 = (calcAccumCPUKids l).2
  | [] => ⟨rfl, rfl⟩
  | c :: cs => by
    simp only [calcAccumCPUNKids, calcAccumCPUKids]
    have h1 := calcAccumCPUN_agree c
    have h2 := calcAccumCPUNKids_agree cs
    exact ⟨by rw [h1.1, h2.1], by rw [h1.2, h2.2]⟩
end

/-- Subtree sums are invariant under reordering children: the aggregation
decomposition does not depend on traversal order. -/
theorem sum_invariant_under_perm :
    (∀ t t', TreePerm t t' → sumRss t = sumRss t' ∧ sumCpu t = sumCpu t') ∧
    (∀ l l', KidsPerm l l' →
      sumRssKids l = sumRssKids l' ∧ sumCpuKids l = sumCpuKids l') := by
  constructor
  · intro t t' h
    refine @TreePerm.rec
      (fun t t' _ => sumRss t = sumRss t' ∧ sumCpu t = sumCpu t')
      (fun l l' _ => sumRssKids l = sumRssKids l' ∧ sumCpuKids l = sumCpuKids l')
      ?_ ?_ ?_ ?_ ?_ t t' h
    · intro pid ppid rss cpu aR aC name cs cs' _ ih
      simp only [sumRss, sumCpu]
      exact ⟨by rw [ih.1], by rw [ih.2]⟩
    · exact ⟨rfl, rfl⟩
    · intro a b l₁ l₂ _ _ ih1 ih2
      simp only [sumRssKids, sumCpuKids]
      exact ⟨by rw [ih1.1, ih2.1], by rw [ih1.2, ih2.2]⟩
    · intro a a' b b' l₁ l₂ _ _ _ i1 i2 i3
      simp only [sumRssKids, sumCpuKids]
      exact ⟨by rw [i1.1, i2.1, i3.1]; ring, by rw [i1.2, i2.2, i3.2]; ring⟩
    · intro l₁ l₂ l₃ _ _ i1 i2
      exact ⟨i1.1.trans i2.1, i1.2.trans i2.2⟩
  · intro l l' h
    refine @KidsPerm.rec
      (fun t t' _ => sumRss t = sumRss t' ∧ sumCpu t = sumCpu t')
      (fun l l' _ => sumRssKids l = sumRssKids l' ∧ sumCpuKids l = sumCpuKids l')
      ?_ ?_ ?_ ?_ ?_ l l' h
    · intro pid ppid rss cpu aR aC name cs cs' _ ih
      simp only [sumRss, sumCpu]
      exact ⟨by rw [ih.1], by rw [ih.2]⟩
    · exact ⟨rfl, rfl⟩
    · intro a b l₁ l₂ _ _ ih1 ih2
      simp only [sumRssKids, sumCpuKids]
      exact ⟨by rw [ih1.1, ih2.1], by rw [ih1.2, ih2.2]⟩
    · intro a a' b b' l₁ l₂ _ _ _ i1 i2 i3
      simp only [sumRssKids, sumCpuKids]
      exact ⟨by rw [i1.1, i2.1, i3.1]; ring, by rw [i1.2, i2.2, i3.2]; ring⟩
    · intro l₁ l₂ l₃ _ _ i1 i2
      exact ⟨i1.1.trans i2.1, i1.2.trans i2.2⟩

mutual
/-- A second `CalcAccumRSS` call (on the mutated tree) always returns the
same value the first call returned, whatever the initial cache state:
recomputation, when it happens, is idempotent. -/
theorem calcAccumRSS_fst_again :
    ∀ t, (calcAccumRSS (calcAccumRSS t).2).1 = (calcAccumRSS t).1
  | .node pid ppid rss cpu aR aC name cs => by
    by_cases h : 0 < aR
    · simp only [calcAccumRSS, if_pos h]
    · simp only [calcAccumRSS, if_neg h]
      by_cases h2 : 0 < rss + (calcAccumRSSKids cs).1
      · simp only [if_pos h2]
      · simp only [if_neg h2]
        rw [calcAccumRSSKids_fst_again cs]

theorem calcAccumRSSKids_fst_again :
    ∀ l, (calcAccumRSSKids (calcAccumRSSKids l).2).1 = (calcAccumRSSKids l).1
  | [] => rfl
  | c :: cs => by
    simp only [calcAccumRSSKids]
    rw [calcAccumRSS_fst_again c, calcAccumRSSKids_fst_again cs]
end

mutual
/-- A second `CalcAccumCPU` call always returns the same value the first
call returned. -/
theorem calcAccumCPU_fst_again :
    ∀ t, (calcAccumCPU (calcAccumCPU t).2).1 = (calcAccumCPU t).1
  | .node pid ppid rss cpu aR aC name cs => by
    by_cases h : 0 < aC
    · simp only [calcAccumCPU, if_pos h]
    · simp only [calcAccumCPU, if_neg h]
      by_cases h2 : 0 < cpu + (calcAccumCPUKids cs).1
      · simp only [if_pos h2]
      · simp only [if_neg h2]
        rw [calcAccumCPUKids_fst_again cs]

theorem calcAccumCPUKids_fst_again :
    ∀ l, (calcAccumCPUKids (calcAccumCPUKids l).2).1 = (calcAccumCPUKids l).1
  | [] => rfl
  | c :: cs => by
    simp only [calcAccumCPUKids]
    rw [calcAccumCPU_fst_again c, calcAccumCPUKids_fst_again cs]
end

/-- After a first call on a fresh tree, the root's RSS cache holds the
subtree sum. -/
theorem accumRSSOf_calc_of_fresh (t : PTree) (h : fresh t = true) :
    ((calcAccumRSS t).2).accumRSSOf = sumRss t := by
  cases t with
  | node pid ppid rss cpu aR aC name cs =>
    simp only [fresh, Bool.and_eq_true, beq_iff_eq] at h
    obtain ⟨⟨h1, _⟩, h3⟩ := h
    subst h1
    simp only [calcAccumRSS, if_neg (by omega : ¬ (0:Int) < 0)]
    simp only [PTree.accumRSSOf, sumRss]
    rw [calcAccumRSSKids_fst_of_fresh cs h3]

/-- After a first call on a fresh tree, the root's CPU cache holds the
subtree sum. -/
theorem accumCPUOf_calc_of_fresh (t : PTree) (h : fresh t = true) :
    ((calcAccumCPU t).2).accumCPUOf = sumCpu t := by
  cases t with
  | node pid ppid rss cpu aR aC name cs =>
    simp only [fresh, Bool.and_eq_true, beq_iff_eq] at h
    obtain ⟨⟨_, h2⟩, h3⟩ := h
    subst h2
    simp only [calcAccumCPU, if_neg (by simp : ¬ (0:ℚ) < 0)]
    simp only [PTree.accumCPUOf, sumCpu]
    rw [calcAccumCPUKids_fst_of_fresh cs h3]

/-- A tree whose root RSS cache is positive is served from the cache:
value returned unchanged, tree untouched, zero cache misses. -/
theorem calcAccumRSSN_of_cached (t : PTree) (h : 0 < t.accumRSSOf) :
    calcAccumRSSN t = (t.accumRSSOf, t, 0) := by
  cases t with
  | node pid ppid rss cpu aR aC name cs =>
    simp only [PTree.accumRSSOf] at h
    simp only [calcAccumRSSN, if_pos h, PTree.accumRSSOf]

/-- A tree whose root CPU cache is positive is served from the cache. -/
theorem calcAccumCPUN_of_cached (t : PTree) (h : 0 < t.accumCPUOf) :
    calcAccumCPUN t = (t.accumCPUOf, t, 0) := by
  cases t with
  | node pid ppid rss cpu aR aC name cs =>
    simp only [PTree.accumCPUOf] at h
    simp only [calcAccumCPUN, if_pos h, PTree.accumCPUOf]

/-- C1: for a fully built (fresh) process tree, the root's accumulated RSS
equals the sum of instantaneous `rss` over all processes in the tree, and
the root's accumulated CPU equals the sum of `cpuFraction` — where the sum
may be taken over the tree with its children lists traversed in any order
(`TreePerm t t'`). -/
theorem claim1_aggregation (t t' : PTree) (hf : fresh t = true)
    (hp : TreePerm t t') :
    (calcAccumRSS t).1 = sumRss t' ∧ (calcAccumCPU t).1 = sumCpu t' := by
  have h3 := sum_invariant_under_perm.1 t t' hp
  exact ⟨(calcAccumRSS_fst_of_fresh t hf).trans h3.1,
         (calcAccumCPU_fst_of_fresh t hf).trans h3.2⟩

/-- Witness for C1 at a concrete two-child tree and its child-swapped
reordering. -/
theorem claim1_aggregation_witness :
    fresh (PTree.node 1 0 5 (1/2) 0 0 "a"
      [PTree.node 2 1 3 (1/4) 0 0 "b" [], PTree.node 3 1 4 (1/8) 0 0 "c" []])
        = true ∧
    TreePerm
      (PTree.node 1 0 5 (1/2) 0 0 "a"
        [PTree.node 2 1 3 (1/4) 0 0 "b" [], PTree.node 3 1 4 (1/8) 0 0 "c" []])
      (PTree.node 1 0 5 (1/2) 0 0 "a"
        [PTree.node 3 1 4 (1/8) 0 0 "c" [], PTree.node 2 1 3 (1/4) 0 0 "b" []]) ∧
    ((calcAccumRSS (PTree.node 1 0 5 (1/2) 0 0 "a"
        [PTree.node 2 1 3 (1/4) 0 0 "b" [], PTree.node 3 1 4 (1/8) 0 0 "c" []])).1
      = sumRss (PTree.node 1 0 5 (1/2) 0 0 "a"
        [PTree.node 3 1 4 (1/8) 0 0 "c" [], PTree.node 2 1 3 (1/4) 0 0 "b" []]) ∧
     (calcAccumCPU (PTree.node 1 0 5 (1/2) 0 0 "a"
        [PTree.node 2 1 3 (1/4) 0 0 "b" [], PTree.node 3 1 4 (1/8) 0 0 "c" []])).1
      = sumCpu (PTree.node 1 0 5 (1/2) 0 0 "a"
        [PTree.node 3 1 4 (1/8) 0 0 "c" [], PTree.node 2 1 3 (1/4) 0 0 "b" []])) :=
  ⟨by decide,
   TreePerm.node 1 0 5 (1/2) 0 0 "a" _ _
     (KidsPerm.swap (TreePerm.node 2 1 3 (1/4) 0 0 "b" [] [] KidsPerm.nil)
       (TreePerm.node 3 1 4 (1/8) 0 0 "c" [] [] KidsPerm.nil) KidsPerm.nil),
   claim1_aggregation _ _ (by decide)
     (TreePerm.node 1 0 5 (1/2) 0 0 "a" _ _
       (KidsPerm.swap (TreePerm.node 2 1 3 (1/4) 0 0 "b" [] [] KidsPerm.nil)
         (TreePerm.node 3 1 4 (1/8) 0 0 "c" [] [] KidsPerm.nil) KidsPerm.nil))⟩

/-- C2 (amended): a second `CalcAccumRSS`/`CalcAccumCPU` call always
returns the identical value; but because the cache sentinel is "value
greater than zero", recomputation is skipped only when the computed
aggregate is positive — for a fresh tree with positive subtree sums, the
second call performs no recomputation (zero cache misses). -/
theorem claim2_memoization : ∀ t : PTree,
    ((calcAccumRSSN ((calcAccumRSSN t).2.1)).1 = (calcAccumRSSN t).1) ∧
    ((calcAccumCPUN ((calcAccumCPUN t).2.1)).1 = (calcAccumCPUN t).1) ∧
    (fresh t = true → 0 < sumRss t →
      (calcAccumRSSN ((calcAccumRSSN t).2.1)).2.2 = 0) ∧
    (fresh t = true → 0 < sumCpu t →
      (calcAccumCPUN ((calcAccumCPUN t).2.1)).2.2 = 0) := by
  intro t
  refine ⟨?_, ?_, ?_, ?_⟩
  · rw [(calcAccumRSSN_agree _).1, (calcAccumRSSN_agree t).2,
      calcAccumRSS_fst_again, (calcAccumRSSN_agree t).1]
  · rw [(calcAccumCPUN_agree _).1, (calcAccumCPUN_agree t).2,
      calcAccumCPU_fst_again, (calcAccumCPUN_agree t).1]
  · intro hf hpos
    rw [(calcAccumRSSN_agree t).2]
    have hc : 0 < ((calcAccumRSS t).2).accumRSSOf := by
      rw [accumRSSOf_calc_of_fresh t hf]; exact hpos
    rw [calcAccumRSSN_of_cached _ hc]
  · intro hf hpos
    rw [(calcAccumCPUN_agree t).2]
    have hc : 0 < ((calcAccumCPU t).2).accumCPUOf := by
      rw [accumCPUOf_calc_of_fresh t hf]; exact hpos
    rw [calcAccumCPUN_of_cached _ hc]

/-- Witness for C2 (amended) at a concrete positive-aggregate tree. -/
theorem claim2_memoization_witness :
    (fresh (PTree.node 1 0 5 1 0 0 "w" []) = true ∧
     0 < sumRss (PTree.node 1 0 5 1 0 0 "w" []) ∧
     0 < sumCpu (PTree.node 1 0 5 1 0 0 "w" [])) ∧
    (calcAccumRSSN ((calcAccumRSSN (PTree.node 1 0 5 1 0 0 "w" [])).2.1)).2.2
      = 0 ∧
    (calcAccumCPUN ((calcAccumCPUN (PTree.node 1 0 5 1 0 0 "w" [])).2.1)).2.2
      = 0 :=
  ⟨⟨by decide, by decide, by simp [sumCpu, sumCpuKids]⟩,
   (claim2_memoization (PTree.node 1 0 5 1 0 0 "w" [])).2.2.1
     (by decide) (by decide),
   (claim2_memoization (PTree.node 1 0 5 1 0 0 "w" [])).2.2.2
     (by decide) (by simp [sumCpu, sumCpuKids])⟩

/-- C2 as stated is false: for a fresh single process whose RSS is zero,
the true aggregate is exactly zero, and the second `CalcAccumRSS` call
recomputes the subtree sum (one cache miss) — the `AccumRSS > 0` sentinel
cannot distinguish "uninitialized" from "computed but zero". -/
theorem claim2_counterexample :
    fresh (PTree.node 1 0 0 0 0 0 "z" []) = true ∧
    sumRss (PTree.node 1 0 0 0 0 0 "z" []) = 0 ∧
    (calcAccumRSSN ((calcAccumRSSN (PTree.node 1 0 0 0 0 0 "z" [])).2.1)).2.2
      ≠ 0 := by
  refine ⟨by decide, by decide, by decide⟩

/-- Inserting `x` leaves the subsequence of elements satisfying `P`
untouched apart from prepending `x` when `P x`, provided `x` never swaps
past a `P`-element while `P x` holds. -/
theorem insRev_filter {α : Type} (less : α → α → Bool) (P : α → Bool) (x : α)
    (hP : ∀ y, P x = true → less x y = true → P y = false) :
    ∀ racc : List α, (insRev less x racc).filter P =
      if P x then x :: racc.filter P else racc.filter P
  | [] => by
    simp only [insRev, List.filter]
    cases hx : P x <;> simp [hx]
  | y :: ys => by
    simp only [insRev]
    by_cases hl : less x y = true
    · rw [if_pos hl]
      cases hx : P x with
      | true =>
        have hy := hP y hx hl
        simp only [List.filter, hy, if_pos rfl]
        rw [insRev_filter less P x hP ys]
        simp [hx, List.filter, hy]
      | false =>
        simp only [List.filter]
        rw [insRev_filter less P x hP ys]
        simp [hx]
    · rw [if_neg hl]
      cases hx : P x <;> simp [List.filter, hx]

/-- The filter through the whole left-to-right insertion fold. -/
theorem foldl_insRev_filter {α : Type} (less : α → α → Bool) (P : α → Bool)
    (hP : ∀ x y, P x = true → less x y = true → P y = false) :
    ∀ (l racc : List α),
      (l.foldl (fun r x => insRev less x r) racc).filter P =
        (l.filter P).reverse ++ racc.filter P
  | [], racc => by simp
  | x :: l, racc => by
    simp only [List.foldl]
    rw [foldl_insRev_filter less P hP l (insRev less x racc)]
    rw [insRev_filter less P x (fun y => hP x y)]
    cases hx : P x <;> simp [List.filter, hx]

/-- Go's stable sort preserves the relative order of the elements
satisfying any predicate `P` that the comparator never orders strictly
inside (in particular, of any equivalence class of tied elements). -/
theorem stableSortGo_filter {α : Type} (less : α → α → Bool) (P : α → Bool)
    (hP : ∀ x y, P x = true → less x y = true → P y = false) (l : List α) :
    (stableSortGo less l).filter P = l.filter P := by
  unfold stableSortGo
  rw [List.filter_reverse, foldl_insRev_filter less P hP l []]
  simp

/-- With `Reverse` unset, `SortProcs.Less` is the configured comparator. -/
theorem sortLess_false {α : Type} (sf : α → α → Bool) :
    sortLess sf false = sf := by
  funext a b
  simp [sortLess]

/-- C4 (amended): in the ascending direction (`reverse=false`) the tree
sort preserves the original relative order of children with equal
accumulated metric, for both the accumulated-RSS and the accumulated-CPU
comparator: the subsequence of children whose metric equals any given
value is returned unchanged.  (With `reverse=true` the negated comparator
is no longer a strict order and ties are *not* preserved — see the
counterexample.) -/
theorem claim4_stable_ties (l : List PTree) (k : Int) (q : ℚ) :
    (stableSortGo (sortLess sortFuncRSS false) l).filter
        (fun t => decide ((calcAccumRSS t).1 = k))
      = l.filter (fun t => decide ((calcAccumRSS t).1 = k)) ∧
    (stableSortGo (sortLess sortFuncCPU false) l).filter
        (fun t => decide ((calcAccumCPU t).1 = q))
      = l.filter (fun t => decide ((calcAccumCPU t).1 = q)) := by
  constructor
  · rw [sortLess_false]
    apply stableSortGo_filter
    intro x y hx hl
    rw [decide_eq_true_eq] at hx
    simp only [sortFuncRSS, decide_eq_true_eq] at hl
    apply decide_eq_false
    intro hy
    rw [hy, ← hx] at hl
    exact lt_irrefl _ hl
  · rw [sortLess_false]
    apply stableSortGo_filter
    intro x y hx hl
    rw [decide_eq_true_eq] at hx
    simp only [sortFuncCPU, decide_eq_true_eq] at hl
    apply decide_eq_false
    intro hy
    rw [hy, ← hx] at hl
    exact lt_irrefl _ hl

/-- C4 as stated is false for `reverse=true`: two children with equal
accumulated RSS (both comparisons return `false`, a tie) are swapped by
the reversed sort — the negation of a strict `<` makes tied elements
compare as "less" in both directions and the insertion pass moves the
later child past the earlier one. -/
theorem claim4_counterexample :
    sortFuncRSS (PTree.node 1 0 5 0 0 0 "a" [])
      (PTree.node 2 0 5 0 0 0 "b" []) = false ∧
    sortFuncRSS (PTree.node 2 0 5 0 0 0 "b" [])
      (PTree.node 1 0 5 0 0 0 "a" []) = false ∧
    (stableSortGo (sortLess sortFuncRSS true)
        [PTree.node 1 0 5 0 0 0 "a" [], PTree.node 2 0 5 0 0 0 "b" []]).map
        PTree.pidOf = [2, 1] := by
  refine ⟨by decide, by decide, by decide⟩

theorem lookupS_eq_none_iff (s : Store) (p : Nat) :
    lookupS s p = none ↔ p ∉ keysS s := by
  induction s with
  | nil => simp [lookupS, keysS]
  | cons kv s ih =>
    simp only [lookupS, keysS, List.map_cons, List.mem_cons]
    by_cases h : kv.1 = p
    · simp [h]
    · simp only [if_neg h, ih, keysS]
      constructor
      · intro hn hor
        rcases hor with h1 | h2
        · exact h h1.symm
        · exact hn h2
      · intro hn h2
        exact hn (Or.inr h2)

theorem mem_keysS_of_lookupS {s : Store} {p : Nat} {e : PEntry}
    (h : lookupS s p = some e) : p ∈ keysS s := by
  by_contra hn
  rw [← lookupS_eq_none_iff] at hn
  rw [hn] at h
  exact Option.noConfusion h

theorem lookupS_isSome_of_mem {s : Store} {p : Nat}
    (h : p ∈ keysS s) : ∃ e, lookupS s p = some e := by
  cases he : lookupS s p with
  | none => exact absurd ((lookupS_eq_none_iff s p).mp he) (by simp [h])
  | some e => exact ⟨e, rfl⟩

theorem lookupS_append (s t : Store) (p : Nat) :
    lookupS (s ++ t) p =
      match lookupS s p with
      | some e => some e
      | none => lookupS t p := by
  induction s with
  | nil => simp [lookupS]
  | cons kv s ih =>
    simp only [List.cons_append, lookupS]
    by_cases h : kv.1 = p
    · simp [h]
    · simp only [if_neg h]
      exact ih

theorem keysS_insertS (s : Store) (p : Nat) (e : PEntry) :
    keysS (insertS s p e) = keysS s ++ [p] := by
  simp [keysS, insertS]

theorem lookupS_insertS_self {s : Store} {p : Nat} (e : PEntry)
    (h : lookupS s p = none) : lookupS (insertS s p e) p = some e := by
  rw [insertS, lookupS_append, h]
  simp [lookupS]

theorem lookupS_insertS_ne {s : Store} {p q : Nat} (e : PEntry)
    (h : q ≠ p) : lookupS (insertS s p e) q = lookupS s q := by
  rw [insertS, lookupS_append]
  cases hl : lookupS s q with
  | some x => rfl
  | none => simp [lookupS, Ne.symm h]

theorem keysS_addChild (s : Store) (par ch : Nat) :
    keysS (addChild s par ch) = keysS s := by
  induction s with
  | nil => rfl
  | cons kv s ih =>
    simp only [addChild, keysS, List.map_cons] at *
    by_cases h : kv.1 = par
    · simpa [h] using ih
    · simpa [h] using ih

theorem addChild_of_not_mem {s : Store} {par : Nat} (ch : Nat)
    (h : par ∉ keysS s) : addChild s par ch = s := by
  induction s with
  | nil => rfl
  | cons kv s ih =>
    simp only [keysS, List.map_cons, List.mem_cons, not_or] at h
    simp only [addChild, List.map_cons]
    rw [if_neg (fun hc => h.1 hc.symm)]
    have := ih (by simp [keysS, h.2])
    simp only [addChild] at this
    rw [this]

theorem lookupS_addChild_ne (s : Store) {par q : Nat} (ch : Nat)
    (h : q ≠ par) : lookupS (addChild s par ch) q = lookupS s q := by
  induction s with
  | nil => rfl
  | cons kv s ih =>
    simp only [addChild, List.map_cons]
    by_cases hk : kv.1 = par
    · rw [if_pos hk]
      simp only [lookupS]
      have hne : ¬ (kv.1 = q) := fun hc => h (by rw [← hc, hk])
      rw [if_neg hne, if_neg hne]
      simpa [addChild] using ih
    · rw [if_neg hk]
      simp only [lookupS]
      by_cases hq : kv.1 = q
      · rw [if_pos hq, if_pos hq]
      · rw [if_neg hq, if_neg hq]
        simpa [addChild] using ih

theorem lookupS_addChild_self {s : Store} {par : Nat} {e : PEntry} (ch : Nat)
    (h : lookupS s par = some e) :
    lookupS (addChild s par ch) par
      = some { e with children := e.children ++ [ch] } := by
  induction s with
  | nil => exact Option.noConfusion h
  | cons kv s ih =>
    simp only [lookupS] at h
    simp only [addChild, List.map_cons]
    by_cases hk : kv.1 = par
    · rw [if_pos hk] at h ⊢
      simp only [lookupS, if_pos hk]
      rw [show kv.2 = e from Option.some.inj h]
    · rw [if_neg hk] at h ⊢
      simp only [lookupS, if_neg hk]
      exact ih h

theorem countChildren_insertS (s : Store) (p q : Nat) (e : PEntry) :
    countChildren (insertS s p e) q
      = countChildren s q + e.children.count q := by
  simp [insertS, countChildren]

theorem countChildren_addChild {s : Store} (hnd : (keysS s).Nodup)
    {par : Nat} (hmem : par ∈ keysS s) (ch q : Nat) :
    countChildren (addChild s par ch) q
      = countChildren s q + (if ch = q then 1 else 0) := by
  induction s with
  | nil => simp [keysS] at hmem
  | cons kv s ih =>
    simp only [keysS, List.map_cons, List.nodup_cons] at hnd
    simp only [keysS, List.map_cons, List.mem_cons] at hmem
    by_cases hk : kv.1 = par
    · have hnotin : par ∉ keysS s := by
        rw [← hk]; exact hnd.1
      simp only [addChild, List.map_cons, if_pos hk]
      have heq : addChild s par ch = s := addChild_of_not_mem ch hnotin
      simp only [addChild] at heq
      rw [heq]
      simp only [countChildren, List.map_cons, List.sum_cons]
      rw [List.count_append]
      have : List.count q [ch] = if ch = q then 1 else 0 := by
        by_cases h : ch = q
        · simp [h]
        · rw [if_neg h, List.count_eq_zero, List.mem_singleton]
          omega
      omega
    · have hmem' : par ∈ keysS s := by
        rcases hmem with h1 | h2
        · exact absurd h1.symm hk
        · exact h2
      simp only [addChild, List.map_cons, if_neg hk]
      simp only [countChildren, List.map_cons, List.sum_cons]
      have := ih hnd.2 hmem'
      simp only [countChildren, addChild] at this
      omega

theorem countChildren_eq_zero_of_not_mem {s : Store} {p : Nat}
    (hcl : ∀ kv ∈ s, ∀ ch ∈ kv.2.children, ch ∈ keysS s)
    (h : p ∉ keysS s) : countChildren s p = 0 := by
  apply List.sum_eq_zero
  intro x hx
  simp only [List.mem_map] at hx
  obtain ⟨kv, hkv, rfl⟩ := hx
  rw [List.count_eq_zero]
  intro hp
  exact h (hcl kv hkv p hp)

theorem length_addChild (s : Store) (par ch : Nat) :
    (addChild s par ch).length = s.length := by
  simp [addChild]

theorem take_addChild (s : Store) (par ch : Nat) (i : Nat) :
    (addChild s par ch).take i = addChild (s.take i) par ch := by
  simp [addChild, List.map_take]

theorem get_addChild_fst (s : Store) (par ch : Nat) (i : Nat)
    (h : i < s.length) (h' : i < (addChild s par ch).length) :
    ((addChild s par ch).get ⟨i, h'⟩).1 = (s.get ⟨i, h⟩).1 := by
  simp only [addChild, List.get_eq_getElem, List.getElem_map]
  split <;> rfl

theorem get_addChild_ppid (s : Store) (par ch : Nat) (i : Nat)
    (h : i < s.length) (h' : i < (addChild s par ch).length) :
    ((addChild s par ch).get ⟨i, h'⟩).2.ppid = (s.get ⟨i, h⟩).2.ppid := by
  simp only [addChild, List.get_eq_getElem, List.getElem_map]
  split <;> rfl

theorem SubS.rfl (s : Store) : SubS s s := by
  intro p e h
  exact ⟨[], by rw [List.append_nil]; exact h⟩

theorem SubS.comp {s₁ s₂ s₃ : Store} (h1 : SubS s₁ s₂) (h2 : SubS s₂ s₃) :
    SubS s₁ s₃ := by
  intro p e h
  obtain ⟨tl, hl⟩ := h1 p e h
  obtain ⟨tl', hl'⟩ := h2 p _ hl
  exact ⟨tl ++ tl', by rw [← List.append_assoc]; exact hl'⟩

theorem subS_insertS (s : Store) (p : Nat) (e : PEntry) :
    SubS s (insertS s p e) := by
  intro q eq hq
  refine ⟨[], ?_⟩
  rw [List.append_nil, insertS, lookupS_append, hq]

theorem subS_addChild (s : Store) (par ch : Nat) :
    SubS s (addChild s par ch) := by
  intro q eq hq
  by_cases h : q = par
  · subst h
    exact ⟨[ch], lookupS_addChild_self ch hq⟩
  · refine ⟨[], ?_⟩
    rw [List.append_nil, lookupS_addChild_ne s ch h]
    exact hq

theorem take_insertS_le (s : Store) (p : Nat) (e : PEntry) (i : Nat)
    (hi : i ≤ s.length) : (insertS s p e).take i = s.take i :=
  List.take_append_of_le_length hi

theorem childLink_keys {s : Store} (inv : Inv s) :
    ∀ kv ∈ s, ∀ ch ∈ kv.2.children, ch ∈ keysS s := by
  intro kv hkv ch hch
  obtain ⟨e', he', _⟩ := inv.childLink kv hkv ch hch
  exact mem_keysS_of_lookupS he'

theorem nodup_keysS_insertS {s : Store} {pid : Nat} (e : PEntry)
    (hnd : (keysS s).Nodup) (hpk : pid ∉ keysS s) :
    (keysS (insertS s pid e)).Nodup := by
  rw [keysS_insertS]
  simp [List.nodup_append, hnd, hpk]

/-- Inserting a parentless process preserves the store invariant. -/
theorem inv_insert_root {s : Store} {pid : Nat} {e : PEntry} (inv : Inv s)
    (hp : lookupS s pid = none) (he : e.ppid = 0) (hc : e.children = []) :
    Inv (insertS s pid e) := by
  have hpk : pid ∉ keysS s := (lookupS_eq_none_iff s pid).mp hp
  constructor
  · exact nodup_keysS_insertS e inv.nodup hpk
  · intro i h hppid
    have hlen : i < s.length + 1 := by
      simpa [insertS] using h
    by_cases hi : i < s.length
    · have hget : ((insertS s pid e).get ⟨i, h⟩) = s.get ⟨i, hi⟩ := by
        simp only [insertS, List.get_eq_getElem]
        exact List.getElem_append_left hi
      rw [hget] at hppid ⊢
      rw [take_insertS_le s pid e i (Nat.le_of_lt hi)]
      exact inv.parentEarlier i hi hppid
    · have hi' : i = s.length := by omega
      subst hi'
      have hget : ((insertS s pid e).get ⟨s.length, h⟩) = (pid, e) := by
        simp only [insertS, List.get_eq_getElem]
        rw [List.getElem_append_right (Nat.le_refl _)]
        simp
      rw [hget] at hppid
      exact absurd he hppid
  · intro kv hkv ch hch
    rcases List.mem_append.mp hkv with hin | hlast
    · obtain ⟨ec, hec, hppid⟩ := inv.childLink kv hin ch hch
      have hne : ch ≠ pid := by
        intro hcontra
        exact hpk (hcontra ▸ mem_keysS_of_lookupS hec)
      refine ⟨ec, ?_, hppid⟩
      rw [lookupS_insertS_ne e hne]
      exact hec
    · have : kv = (pid, e) := by simpa using hlast
      subst this
      simp only [hc] at hch
      exact absurd hch (List.not_mem_nil ch)
  · intro kv hkv
    rcases List.mem_append.mp hkv with hin | hlast
    · rw [countChildren_insertS, hc]
      simp only [List.count_nil, Nat.add_zero]
      exact inv.childCount kv hin
    · have : kv = (pid, e) := by simpa using hlast
      subst this
      rw [countChildren_insertS, hc]
      simp only [List.count_nil, Nat.add_zero, he, if_pos rfl]
      exact countChildren_eq_zero_of_not_mem (childLink_keys inv) hpk

/-- Appending a freshly read process to its (present) parent's children and
then inserting it preserves the store invariant — the exact mutation pair
of pree.go:185,188. -/
theorem inv_insert_child {s : Store} {pid par : Nat} {e : PEntry}
    (inv : Inv s) (hpid : lookupS s pid = none) (hpar : par ∈ keysS s)
    (he : e.ppid = par) (hn0 : par ≠ 0) (hc : e.children = []) :
    Inv (insertS (addChild s par pid) pid e) := by
  have hpk : pid ∉ keysS s := (lookupS_eq_none_iff s pid).mp hpid
  have hkeys' : keysS (addChild s par pid) = keysS s := keysS_addChild s par pid
  have hpk' : pid ∉ keysS (addChild s par pid) := by rw [hkeys']; exact hpk
  have hlook' : lookupS (addChild s par pid) pid = none :=
    (lookupS_eq_none_iff _ pid).mpr hpk'
  have hsub : SubS s (insertS (addChild s par pid) pid e) :=
    (subS_addChild s par pid).comp (subS_insertS (addChild s par pid) pid e)
  constructor
  · apply nodup_keysS_insertS e _ hpk'
    rw [hkeys']
    exact inv.nodup
  · intro i h hppid
    have hlen' : (addChild s par pid).length = s.length := length_addChild s par pid
    have hlen : i < s.length + 1 := by
      simpa [insertS, hlen'] using h
    by_cases hi : i < s.length
    · have hi2 : i < (addChild s par pid).length := by omega
      have hget : ((insertS (addChild s par pid) pid e).get ⟨i, h⟩)
          = (addChild s par pid).get ⟨i, hi2⟩ := by
        simp only [insertS, List.get_eq_getElem]
        exact List.getElem_append_left hi2
      rw [hget] at hppid ⊢
      rw [take_insertS_le _ pid e i (by omega)]
      rw [get_addChild_ppid s par pid i hi hi2] at hppid ⊢
      rw [take_addChild, keysS_addChild]
      exact inv.parentEarlier i hi hppid
    · have hi' : i = s.length := by omega
      subst hi'
      have hget : ((insertS (addChild s par pid) pid e).get ⟨s.length, h⟩)
          = (pid, e) := by
        simp only [insertS, List.get_eq_getElem]
        rw [List.getElem_append_right (by omega)]
        simp [hlen']
      rw [hget]
      rw [take_insertS_le _ pid e s.length (by omega)]
      have : (addChild s par pid).take s.length = addChild s par pid := by
        rw [← hlen']
        exact List.take_length _
      rw [this, hkeys', he]
      exact hpar
  · intro kv hkv ch hch
    rcases List.mem_append.mp hkv with hin | hlast
    · obtain ⟨kv₀, hkv₀, hfeq⟩ := List.mem_map.mp hin
      by_cases hp0 : kv₀.1 = par
      · rw [if_pos hp0] at hfeq
        subst hfeq
        simp only at hch
        rcases List.mem_append.mp hch with hold | hnew
        · obtain ⟨ec, hec, hppid⟩ := inv.childLink kv₀ hkv₀ ch hold
          obtain ⟨tl, htl⟩ := hsub ch ec hec
          exact ⟨_, htl, hppid⟩
        · have hchp : ch = pid := by simpa using hnew
          subst hchp
          refine ⟨e, lookupS_insertS_self e hlook', ?_⟩
          simp [he, hp0]
      · rw [if_neg hp0] at hfeq
        subst hfeq
        obtain ⟨ec, hec, hppid⟩ := inv.childLink kv₀ hkv₀ ch hch
        obtain ⟨tl, htl⟩ := hsub ch ec hec
        exact ⟨_, htl, hppid⟩
    · have : kv = (pid, e) := by simpa using hlast
      subst this
      simp only [hc] at hch
      exact absurd hch (List.not_mem_nil ch)
  · intro kv hkv
    rcases List.mem_append.mp hkv with hin | hlast
    · obtain ⟨kv₀, hkv₀, hfeq⟩ := List.mem_map.mp hin
      have hq : kv.1 = kv₀.1 := by
        by_cases hp0 : kv₀.1 = par
        · rw [if_pos hp0] at hfeq
          subst hfeq
          rfl
        · rw [if_neg hp0] at hfeq
          subst hfeq
          rfl
      have hqppid : kv.2.ppid = kv₀.2.ppid := by
        by_cases hp0 : kv₀.1 = par
        · rw [if_pos hp0] at hfeq
          subst hfeq
          rfl
        · rw [if_neg hp0] at hfeq
          subst hfeq
          rfl
      have hqk : kv₀.1 ∈ keysS s := List.mem_map_of_mem Prod.fst hkv₀
      have hqne : pid ≠ kv₀.1 := fun hcontra => hpk (hcontra ▸ hqk)
      rw [countChildren_insertS, hc, hq]
      simp only [List.count_nil, Nat.add_zero]
      rw [countChildren_addChild inv.nodup hpar pid kv₀.1, if_neg hqne]
      rw [hqppid, Nat.add_zero]
      exact inv.childCount kv₀ hkv₀
    · have : kv = (pid, e) := by simpa using hlast
      subst this
      rw [countChildren_insertS, hc]
      simp only [List.count_nil, Nat.add_zero]
      rw [countChildren_addChild inv.nodup hpar pid pid, if_pos rfl]
      rw [countChildren_eq_zero_of_not_mem (childLink_keys inv) hpk]
      simp [he, hn0]

theorem getLast?_get {α : Type} (T : List α) (a : α) (h : T.getLast? = some a)
    (hT : 0 < T.length) : T.get ⟨T.length - 1, by omega⟩ = a := by
  rw [List.getLast?_eq_getElem?] at h
  have h2 := List.getElem?_eq_getElem
    (show T.length - 1 < T.length by omega)
  rw [h2] at h
  simpa using Option.some.inj h

/-- If the resolution stack `T` is chained by `recs`-parenthood, any
occurrence of `pid` strictly before the last frame is followed by a frame
holding `pid`'s own parent — the key fact that re-entrant resolution of an
in-progress pid forces its parent back onto the stack. -/
theorem mem_dropLast_succ (recs : Nat → Option PRec) (T : List Nat)
    (pid : Nat) (r : PRec)
    (hchain : ∀ i (h : i + 1 < T.length),
        ∃ r', recs (T.get ⟨i, Nat.lt_of_succ_lt h⟩) = some r' ∧
          r'.ppid = T.get ⟨i + 1, h⟩)
    (hrec : recs pid = some r)
    (hmem : pid ∈ T.dropLast) :
    ∃ j, ∃ hj : j < T.length, T.get ⟨j, hj⟩ = r.ppid ∧ j ≠ 0 := by
  obtain ⟨i, hi, hgi⟩ := List.mem_iff_getElem.mp hmem
  have hlen : T.dropLast.length = T.length - 1 := List.length_dropLast T
  have hi1 : i + 1 < T.length := by omega
  have hgetT : T.get ⟨i, by omega⟩ = pid := by
    rw [List.get_eq_getElem]
    rw [← List.getElem_dropLast T i hi]
    exact hgi
  obtain ⟨r', hr', hsucc⟩ := hchain i hi1
  rw [hgetT, hrec] at hr'
  have : r = r' := Option.some.inj hr'
  subst this
  exact ⟨i + 1, hi1, hsucc.symm, by omega⟩

theorem get_append_left' {α : Type} (l l' : List α) (i : Nat)
    (hi : i < l.length) (h : i < (l ++ l').length) :
    (l ++ l').get ⟨i, h⟩ = l.get ⟨i, hi⟩ := by
  simp only [List.get_eq_getElem]
  exact List.getElem_append_left hi

theorem get_append_right_last {α : Type} (l : List α) (a : α)
    (h : l.length < (l ++ [a]).length) :
    (l ++ [a]).get ⟨l.length, h⟩ = a := by
  simp only [List.get_eq_getElem]
  rw [List.getElem_append_right (Nat.le_refl _)]
  simp

theorem get_fin_cast {α : Type} (l : List α) (i j : Nat) (hij : i = j)
    (hi : i < l.length) (hj : j < l.length) :
    l.get ⟨i, hi⟩ = l.get ⟨j, hj⟩ := by
  subst hij
  rfl

/-- The central builder lemma, by induction on fuel over the in-progress
resolution stack `T` (outermost frame first, `pid` the deepest/current
frame): consecutive frames are linked by `recs`-parenthood, no in-progress
frame is in the store, and non-initial frames are nonzero pids.  It yields
invariant preservation, store monotonicity, and — decisively — that a
successful call never inserts any frame other than its own, while a failed
or fuel-exhausted call inserts no frame at all. -/
theorem readProc_stack (recs : Nat → Option PRec) (c : Ctx) :
    ∀ (fuel : Nat) (s : Store) (pid : Nat) (T : List Nat),
    Inv s →
    T.getLast? = some pid →
    (∀ i (h : i + 1 < T.length),
        ∃ r, recs (T.get ⟨i, Nat.lt_of_succ_lt h⟩) = some r ∧
          r.ppid = T.get ⟨i + 1, h⟩) →
    (∀ i (h : i < T.length), i ≠ 0 → T.get ⟨i, h⟩ ≠ 0) →
    (∀ t ∈ T, lookupS s t = none) →
    ((∀ s₂, readProc recs c fuel s pid = .ok s₂ →
        Inv s₂ ∧ SubS s s₂ ∧
        (∃ r, recs pid = some r ∧ lookupS s₂ pid = some (mkEntry c r)) ∧
        (∀ t ∈ T.dropLast, lookupS s₂ t = none)) ∧
     (∀ s₂, readProc recs c fuel s pid = .err s₂ →
        Inv s₂ ∧ SubS s s₂ ∧ (∀ t ∈ T, lookupS s₂ t = none)) ∧
     (∀ s₂, readProc recs c fuel s pid = .oof s₂ →
        Inv s₂ ∧ SubS s s₂ ∧ (∀ t ∈ T, lookupS s₂ t = none))) := by
  intro fuel
  induction fuel with
  | zero =>
    intro s pid T hinv hlast hchain htnz htnone
    refine ⟨?_, ?_, ?_⟩
    · intro s₂ h
      simp [readProc] at h
    · intro s₂ h
      simp [readProc] at h
    · intro s₂ h
      simp only [readProc] at h
      injection h with h2
      subst h2
      exact ⟨hinv, SubS.rfl s, htnone⟩
  | succ fuel ih =>
    intro s pid T hinv hlast hchain htnz htnone
    have hpidT : pid ∈ T := List.mem_of_mem_getLast? hlast
    have hTpos : 0 < T.length := by
      cases T with
      | nil => simp at hlast
      | cons a T => simp
    have hpidnone : lookupS s pid = none := htnone pid hpidT
    cases hrec : recs pid with
    | none =>
      have hstep : readProc recs c (fuel + 1) s pid = .err s := by
        simp [readProc, hpidnone, hrec]
      refine ⟨?_, ?_, ?_⟩
      · intro s₂ h
        rw [hstep] at h
        exact absurd h (by simp)
      · intro s₂ h
        rw [hstep] at h
        injection h with h2
        subst h2
        exact ⟨hinv, SubS.rfl s, htnone⟩
      · intro s₂ h
        rw [hstep] at h
        exact absurd h (by simp)
    | some r =>
      by_cases hpp : r.ppid = 0
      · have hstep : readProc recs c (fuel + 1) s pid
            = .ok (insertS s pid (mkEntry c r)) := by
          simp [readProc, hpidnone, hrec, hpp]
        have hnotd : pid ∉ T.dropLast := by
          intro hmem
          obtain ⟨j, hj, hgj, hjne⟩ :=
            mem_dropLast_succ recs T pid r hchain hrec hmem
          exact htnz j hj hjne (by rw [hgj, hpp])
        refine ⟨?_, ?_, ?_⟩
        · intro s₂ h
          rw [hstep] at h
          injection h with h2
          subst h2
          refine ⟨inv_insert_root hinv hpidnone hpp rfl, subS_insertS s pid _,
                  ⟨r, rfl, lookupS_insertS_self _ hpidnone⟩, ?_⟩
          intro t htd
          have htT : t ∈ T := List.mem_of_mem_dropLast htd
          have htne : t ≠ pid := fun hcontra => hnotd (hcontra ▸ htd)
          rw [lookupS_insertS_ne _ htne]
          exact htnone t htT
        · intro s₂ h
          rw [hstep] at h
          exact absurd h (by simp)
        · intro s₂ h
          rw [hstep] at h
          exact absurd h (by simp)
      · cases hpar : lookupS s r.ppid with
        | some pe =>
          have hstep : readProc recs c (fuel + 1) s pid
              = .ok (insertS (addChild s r.ppid pid) pid (mkEntry c r)) := by
            simp [readProc, hpidnone, hrec, hpp, hpar]
          have hnotd : pid ∉ T.dropLast := by
            intro hmem
            obtain ⟨j, hj, hgj, hjne⟩ :=
              mem_dropLast_succ recs T pid r hchain hrec hmem
            have hppT : r.ppid ∈ T := by
              rw [← hgj]
              exact T.get_mem j hj
            have hn := htnone r.ppid hppT
            rw [hn] at hpar
            exact Option.noConfusion hpar
          refine ⟨?_, ?_, ?_⟩
          · intro s₂ h
            rw [hstep] at h
            injection h with h2
            subst h2
            have hparmem : r.ppid ∈ keysS s := mem_keysS_of_lookupS hpar
            have haddnone : lookupS (addChild s r.ppid pid) pid = none := by
              rw [lookupS_eq_none_iff, keysS_addChild]
              exact (lookupS_eq_none_iff s pid).mp hpidnone
            refine ⟨inv_insert_child hinv hpidnone hparmem rfl hpp rfl,
                    (subS_addChild s r.ppid pid).comp (subS_insertS _ pid _),
                    ⟨r, rfl, lookupS_insertS_self _ haddnone⟩, ?_⟩
            intro t htd
            have htT : t ∈ T := List.mem_of_mem_dropLast htd
            have htne : t ≠ pid := fun hcontra => hnotd (hcontra ▸ htd)
            have htpar : t ≠ r.ppid := by
              intro hcontra
              have hn := htnone t htT
              rw [hcontra, hpar] at hn
              exact Option.noConfusion hn
            rw [lookupS_insertS_ne _ htne, lookupS_addChild_ne _ _ htpar]
            exact htnone t htT
          · intro s₂ h
            rw [hstep] at h
            exact absurd h (by simp)
          · intro s₂ h
            rw [hstep] at h
            exact absurd h (by simp)
        | none =>
          have hlast' : (T ++ [r.ppid]).getLast? = some r.ppid :=
            List.getLast?_concat T
          have hchain' : ∀ i (h : i + 1 < (T ++ [r.ppid]).length),
              ∃ r', recs ((T ++ [r.ppid]).get ⟨i, Nat.lt_of_succ_lt h⟩)
                  = some r' ∧
                r'.ppid = (T ++ [r.ppid]).get ⟨i + 1, h⟩ := by
            intro i h
            have hlen : (T ++ [r.ppid]).length = T.length + 1 := by simp
            by_cases hi : i + 1 < T.length
            · obtain ⟨r', h1, h2⟩ := hchain i hi
              refine ⟨r', ?_, ?_⟩
              · rw [get_append_left' T [r.ppid] i (by omega)]
                exact h1
              · rw [get_append_left' T [r.ppid] (i + 1) hi]
                exact h2
            · have hieq : i + 1 = T.length := by omega
              refine ⟨r, ?_, ?_⟩
              · rw [get_append_left' T [r.ppid] i (by omega),
                  get_fin_cast T i (T.length - 1) (by omega) (by omega)
                    (by omega),
                  getLast?_get T pid hlast hTpos]
                exact hrec
              · rw [get_fin_cast (T ++ [r.ppid]) (i + 1) T.length hieq
                    (by omega) (by omega),
                  get_append_right_last T r.ppid (by omega)]
          have htnz' : ∀ i (h : i < (T ++ [r.ppid]).length), i ≠ 0 →
              (T ++ [r.ppid]).get ⟨i, h⟩ ≠ 0 := by
            intro i h hi0
            have hlen : (T ++ [r.ppid]).length = T.length + 1 := by simp
            by_cases hi : i < T.length
            · rw [get_append_left' T [r.ppid] i hi]
              exact htnz i hi hi0
            · have hieq : i = T.length := by omega
              rw [get_fin_cast (T ++ [r.ppid]) i T.length hieq (by omega)
                  (by omega),
                get_append_right_last T r.ppid (by omega)]
              exact hpp
          have htnone' : ∀ t ∈ T ++ [r.ppid], lookupS s t = none := by
            intro t ht
            rcases List.mem_append.mp ht with h1 | h2
            · exact htnone t h1
            · have : t = r.ppid := by simpa using h2
              rw [this]
              exact hpar
          have IH := ih s r.ppid (T ++ [r.ppid]) hinv hlast' hchain' htnz'
            htnone'
          cases hres : readProc recs c fuel s r.ppid with
          | ok s₃ =>
            obtain ⟨hinv₃, hsub₃, ⟨r', hr', hlook₃⟩, hdrop₃⟩ := IH.1 s₃ hres
            rw [List.dropLast_concat] at hdrop₃
            have hstep : readProc recs c (fuel + 1) s pid
                = .ok (insertS (addChild s₃ r.ppid pid) pid (mkEntry c r)) := by
              simp [readProc, hpidnone, hrec, hpp, hpar, hres]
            have hpid₃ : lookupS s₃ pid = none := hdrop₃ pid hpidT
            have hnotd : pid ∉ T.dropLast := by
              intro hmem
              obtain ⟨j, hj, hgj, hjne⟩ :=
                mem_dropLast_succ recs T pid r hchain hrec hmem
              have hppT : r.ppid ∈ T := by
                rw [← hgj]
                exact T.get_mem j hj
              have hn := hdrop₃ r.ppid hppT
              rw [hn] at hlook₃
              exact Option.noConfusion hlook₃
            refine ⟨?_, ?_, ?_⟩
            · intro s₂ h
              rw [hstep] at h
              injection h with h2
              subst h2
              have hparmem₃ : r.ppid ∈ keysS s₃ := mem_keysS_of_lookupS hlook₃
              have haddnone : lookupS (addChild s₃ r.ppid pid) pid = none := by
                rw [lookupS_eq_none_iff, keysS_addChild]
                exact (lookupS_eq_none_iff s₃ pid).mp hpid₃
              refine ⟨inv_insert_child hinv₃ hpid₃ hparmem₃ rfl hpp rfl,
                      hsub₃.comp ((subS_addChild s₃ r.ppid pid).comp
                        (subS_insertS _ pid _)),
                      ⟨r, rfl, lookupS_insertS_self _ haddnone⟩, ?_⟩
              intro t htd
              have htT : t ∈ T := List.mem_of_mem_dropLast htd
              have htne : t ≠ pid := fun hcontra => hnotd (hcontra ▸ htd)
              have htpar : t ≠ r.ppid := by
                intro hcontra
                have hn := hdrop₃ t htT
                rw [hcontra, hlook₃] at hn
                exact Option.noConfusion hn
              rw [lookupS_insertS_ne _ htne, lookupS_addChild_ne _ _ htpar]
              exact hdrop₃ t htT
            · intro s₂ h
              rw [hstep] at h
              exact absurd h (by simp)
            · intro s₂ h
              rw [hstep] at h
              exact absurd h (by simp)
          | err s₃ =>
            obtain ⟨hinv₃, hsub₃, hT₃⟩ := IH.2.1 s₃ hres
            have hstep : readProc recs c (fuel + 1) s pid = .err s₃ := by
              simp [readProc, hpidnone, hrec, hpp, hpar, hres]
            refine ⟨?_, ?_, ?_⟩
            · intro s₂ h
              rw [hstep] at h
              exact absurd h (by simp)
            · intro s₂ h
              rw [hstep] at h
              injection h with h2
              subst h2
              exact ⟨hinv₃, hsub₃,
                fun t ht => hT₃ t (List.mem_append_left _ ht)⟩
            · intro s₂ h
              rw [hstep] at h
              exact absurd h (by simp)
          | oof s₃ =>
            obtain ⟨hinv₃, hsub₃, hT₃⟩ := IH.2.2 s₃ hres
            have hstep : readProc recs c (fuel + 1) s pid = .oof s₃ := by
              simp [readProc, hpidnone, hrec, hpp, hpar, hres]
            refine ⟨?_, ?_, ?_⟩
            · intro s₂ h
              rw [hstep] at h
              exact absurd h (by simp)
            · intro s₂ h
              rw [hstep] at h
              exact absurd h (by simp)
            · intro s₂ h
              rw [hstep] at h
              injection h with h2
              subst h2
              exact ⟨hinv₃, hsub₃,
                fun t ht => hT₃ t (List.mem_append_left _ ht)⟩

/-- A pid already present short-circuits: the store is never touched. -/
theorem readProc_present_store (recs : Nat → Option PRec) (c : Ctx)
    (fuel : Nat) (s : Store) (pid : Nat) (e : PEntry)
    (h : lookupS s pid = some e) :
    (readProc recs c fuel s pid).store = s := by
  cases fuel with
  | zero => rfl
  | succ fuel => simp [readProc, h, RRes.store]

/-- The empty store satisfies the invariant. -/
theorem inv_nil : Inv ([] : Store) := by
  constructor
  · simp [keysS]
  · intro i h
    simp at h
  · intro kv hkv
    simp at hkv
  · intro kv hkv
    simp at hkv

/-- One `ReadProc` call from an invariant store leaves an invariant,
monotonically grown store — whatever the outcome. -/
theorem readProc_store_inv (recs : Nat → Option PRec) (c : Ctx)
    (fuel : Nat) (s : Store) (pid : Nat) (hinv : Inv s) :
    Inv (readProc recs c fuel s pid).store ∧
      SubS s (readProc recs c fuel s pid).store := by
  cases hl : lookupS s pid with
  | some e =>
    rw [readProc_present_store recs c fuel s pid e hl]
    exact ⟨hinv, SubS.rfl s⟩
  | none =>
    have H := readProc_stack recs c fuel s pid [pid] hinv (by simp)
      (by intro i hi; simp at hi)
      (by intro i hi hi0; simp at hi; omega)
      (by intro t ht; rw [show t = pid by simpa using ht]; exact hl)
    cases hres : readProc recs c fuel s pid with
    | ok s₂ =>
      obtain ⟨h1, h2, _, _⟩ := H.1 s₂ hres
      exact ⟨h1, h2⟩
    | err s₂ =>
      obtain ⟨h1, h2, _⟩ := H.2.1 s₂ hres
      exact ⟨h1, h2⟩
    | oof s₂ =>
      obtain ⟨h1, h2, _⟩ := H.2.2 s₂ hres
      exact ⟨h1, h2⟩

/-- Function `ReadProcs` preserves the invariant and grows the store,
for any
enumeration order, record source and fuel. -/
theorem readProcs_inv (recs : Nat → Option PRec) (c : Ctx) (fuel : Nat) :
    ∀ (pids : List Nat) (s : Store), Inv s →
      Inv (readProcs recs c fuel pids s) ∧
        SubS s (readProcs recs c fuel pids s) := by
  intro pids
  induction pids with
  | nil =>
    intro s hinv
    exact ⟨hinv, SubS.rfl s⟩
  | cons p ps ihp =>
    intro s hinv
    have hstep : readProcs recs c fuel (p :: ps) s
        = readProcs recs c fuel ps ((readProc recs c fuel s p).store) := by
      simp [readProcs]
    obtain ⟨hinv', hsub'⟩ := readProc_store_inv recs c fuel s p hinv
    obtain ⟨h1, h2⟩ := ihp ((readProc recs c fuel s p).store) hinv'
    rw [hstep]
    exact ⟨h1, hsub'.comp h2⟩

theorem lookupS_mem {s : Store} {p : Nat} {e : PEntry}
    (h : lookupS s p = some e) : (p, e) ∈ s := by
  induction s with
  | nil => exact Option.noConfusion h
  | cons kv s ih =>
    simp only [lookupS] at h
    by_cases hk : kv.1 = p
    · rw [if_pos hk] at h
      have hkv : kv = (p, e) := by
        rw [Prod.ext_iff]
        exact ⟨hk, Option.some.inj h⟩
      rw [← hkv]
      exact List.mem_cons_self kv s
    · rw [if_neg hk] at h
      exact List.mem_cons_of_mem kv (ih h)

theorem idxS_lookup {s : Store} {b : Nat} {e : PEntry}
    (h : lookupS s b = some e) :
    ∃ hi : idxS s b < s.length, s.get ⟨idxS s b, hi⟩ = (b, e) := by
  induction s with
  | nil => exact Option.noConfusion h
  | cons kv s ih =>
    simp only [lookupS] at h
    by_cases hk : kv.1 = b
    · rw [if_pos hk] at h
      refine ⟨by simp [idxS, hk], ?_⟩
      simp only [idxS, if_pos hk]
      rw [Prod.ext_iff]
      exact ⟨hk, Option.some.inj h⟩
    · rw [if_neg hk] at h
      obtain ⟨hi, hg⟩ := ih h
      refine ⟨by simp [idxS, hk]; omega, ?_⟩
      simp only [idxS, if_neg hk]
      exact hg

theorem idxS_lt_of_mem_take {s : Store} {p : Nat} :
    ∀ {i : Nat}, p ∈ keysS (s.take i) → idxS s p < i := by
  induction s with
  | nil =>
    intro i h
    simp [keysS] at h
  | cons kv s ih =>
    intro i h
    cases i with
    | zero => simp [keysS] at h
    | succ i =>
      simp only [List.take_succ_cons, keysS, List.map_cons, List.mem_cons]
        at h
      by_cases hk : kv.1 = p
      · simp [idxS, hk]
      · rcases h with h1 | h2
        · exact absurd h1.symm hk
        · simp only [idxS, if_neg hk]
          have := ih h2
          omega

/-- In an invariant store, following a parent link strictly decreases the
insertion index. -/
theorem parent_idx_lt {s : Store} (inv : Inv s) {b : Nat} {e : PEntry}
    (hb : lookupS s b = some e) (hpp : e.ppid ≠ 0) :
    (∃ e', lookupS s e.ppid = some e') ∧ idxS s e.ppid < idxS s b := by
  obtain ⟨hi, hg⟩ := idxS_lookup hb
  have hpe := inv.parentEarlier (idxS s b) hi
  rw [hg] at hpe
  have hmem := hpe hpp
  have hlt := idxS_lt_of_mem_take hmem
  have hkeys : e.ppid ∈ keysS s := by
    have hsub : keysS (s.take (idxS s b)) ⊆ keysS s := by
      intro x hx
      simp only [keysS, List.mem_map] at hx ⊢
      obtain ⟨kv, hkv, rfl⟩ := hx
      exact ⟨kv, List.mem_of_mem_take hkv, rfl⟩
    exact hsub hmem
  exact ⟨lookupS_isSome_of_mem hkeys, hlt⟩

theorem ancS_idx_lt {s : Store} (inv : Inv s) {a b : Nat}
    (h : AncS s a b) :
    (∃ e', lookupS s a = some e') ∧ idxS s a < idxS s b := by
  induction h with
  | parent hb hpp hppa =>
    subst hppa
    exact parent_idx_lt inv hb hpp
  | trans h1 h2 ih1 ih2 =>
    exact ⟨ih1.1, Nat.lt_trans ih1.2 ih2.2⟩

/-- In an invariant store no pid is its own proper ancestor. -/
theorem no_self_ancestor {s : Store} (inv : Inv s) (p : Nat) :
    ¬ AncS s p p := by
  intro h
  exact Nat.lt_irrefl _ (ancS_idx_lt inv h).2

/-- C3 (the code lacks the claimed guard): on the cyclic record set the
recursive resolution never terminates — for every fuel bound, resolving
pid 5 (or pid 7) from the empty store exhausts the fuel, inserting
nothing and never producing any error: `ReadProc` has no in-progress set
and no `CycleDetected` outcome, it only ever recurses. -/
theorem claim3_cycle_diverges (c : Ctx) :
    ∀ fuel : Nat,
      readProc recsCyc c fuel [] 5 = .oof [] ∧
      readProc recsCyc c fuel [] 7 = .oof [] := by
  intro fuel
  induction fuel with
  | zero => exact ⟨rfl, rfl⟩
  | succ fuel ih =>
    constructor
    · simp [readProc, lookupS, recsCyc, ih.2]
    · simp [readProc, lookupS, recsCyc, ih.1]

/-- C5: after enumeration — any record source, any enumeration order, any
fuel — every non-root process in the store occurs in exactly one parent's
children sequence, exactly once, the containing parent is its `ppid`, and
no process is its own ancestor. -/
theorem claim5_tree_invariant (recs : Nat → Option PRec) (c : Ctx)
    (fuel : Nat) (pids : List Nat) :
    (∀ p e, lookupS (readProcs recs c fuel pids []) p = some e →
      e.ppid ≠ 0 →
      countChildren (readProcs recs c fuel pids []) p = 1 ∧
      (∀ q e', lookupS (readProcs recs c fuel pids []) q = some e' →
        p ∈ e'.children → q = e.ppid)) ∧
    (∀ p, ¬ AncS (readProcs recs c fuel pids []) p p) := by
  have hinv := (readProcs_inv recs c fuel pids [] inv_nil).1
  constructor
  · intro p e hl hpp
    constructor
    · have := hinv.childCount (p, e) (lookupS_mem hl)
      simpa [hpp] using this
    · intro q e' hq hpe
      obtain ⟨ep, hlp, hppq⟩ := hinv.childLink (q, e') (lookupS_mem hq) p hpe
      rw [hl] at hlp
      have : e = ep := Option.some.inj hlp
      rw [this]
      exact hppq.symm
  · intro p
    exact no_self_ancestor hinv p

/-- Witness for C5 on the concrete two-record source {1 ↦ root,
2 ↦ child of 1}. -/
theorem claim5_tree_invariant_witness :
    lookupS (readProcs
        (fun p => if p = 1 then some ⟨0, 10, 0, 0, 0, "init", none⟩
          else if p = 2 then some ⟨1, 20, 0, 0, 0, "child", none⟩
          else none)
        ⟨4096, [100], 1⟩ 5 [1, 2] []) 2
      = some (mkEntry ⟨4096, [100], 1⟩ ⟨1, 20, 0, 0, 0, "child", none⟩) ∧
    (mkEntry ⟨4096, [100], 1⟩ ⟨1, 20, 0, 0, 0, "child", none⟩).ppid ≠ 0 ∧
    countChildren (readProcs
        (fun p => if p = 1 then some ⟨0, 10, 0, 0, 0, "init", none⟩
          else if p = 2 then some ⟨1, 20, 0, 0, 0, "child", none⟩
          else none)
        ⟨4096, [100], 1⟩ 5 [1, 2] []) 2 = 1 ∧
    ¬ AncS (readProcs
        (fun p => if p = 1 then some ⟨0, 10, 0, 0, 0, "init", none⟩
          else if p = 2 then some ⟨1, 20, 0, 0, 0, "child", none⟩
          else none)
        ⟨4096, [100], 1⟩ 5 [1, 2] []) 2 2 :=
  ⟨rfl, by decide,
   ((claim5_tree_invariant
      (fun p => if p = 1 then some ⟨0, 10, 0, 0, 0, "init", none⟩
        else if p = 2 then some ⟨1, 20, 0, 0, 0, "child", none⟩
        else none)
      ⟨4096, [100], 1⟩ 5 [1, 2]).1 2
      (mkEntry ⟨4096, [100], 1⟩ ⟨1, 20, 0, 0, 0, "child", none⟩)
      rfl (by decide)).1,
   (claim5_tree_invariant
      (fun p => if p = 1 then some ⟨0, 10, 0, 0, 0, "init", none⟩
        else if p = 2 then some ⟨1, 20, 0, 0, 0, "child", none⟩
        else none)
      ⟨4096, [100], 1⟩ 5 [1, 2]).2 2⟩

/-- C10: whenever `ReadProc` returns an error, the failed pid has not been
inserted and sits in no children sequence; the store keeps everything it
already had (children only extended) and stays invariant — ancestors that
were successfully resolved inside the failed call simply remain. -/
theorem claim10_error_no_insert (recs : Nat → Option PRec) (c : Ctx)
    (fuel : Nat) (s s₂ : Store) (pid : Nat) (hinv : Inv s)
    (hpid : lookupS s pid = none)
    (h : readProc recs c fuel s pid = .err s₂) :
    lookupS s₂ pid = none ∧ countChildren s₂ pid = 0 ∧
      Inv s₂ ∧ SubS s s₂ := by
  have H := readProc_stack recs c fuel s pid [pid] hinv (by simp)
    (by intro i hi; simp at hi)
    (by intro i hi hi0; simp at hi; omega)
    (by intro t ht; rw [show t = pid by simpa using ht]; exact hpid)
  obtain ⟨hinv₂, hsub₂, hnone⟩ := H.2.1 s₂ h
  have hp2 : lookupS s₂ pid = none := hnone pid (by simp)
  refine ⟨hp2, ?_, hinv₂, hsub₂⟩
  exact countChildren_eq_zero_of_not_mem (childLink_keys hinv₂)
    ((lookupS_eq_none_iff _ _).mp hp2)

/-- Witness for C10: resolving pid 5 whose parent 7 has vanished fails and
mutates nothing. -/
theorem claim10_error_no_insert_witness :
    readProc
        (fun p => if p = 5 then some ⟨7, 0, 0, 0, 0, "x", none⟩ else none)
        ⟨4096, [100], 1⟩ 5 [] 5 = .err [] ∧
    lookupS ([] : Store) 5 = none ∧
    lookupS ([] : Store) 5 = none ∧ countChildren ([] : Store) 5 = 0 :=
  ⟨rfl, rfl,
   (claim10_error_no_insert
      (fun p => if p = 5 then some ⟨7, 0, 0, 0, 0, "x", none⟩ else none)
      ⟨4096, [100], 1⟩ 5 [] [] 5 inv_nil rfl rfl).1,
   (claim10_error_no_insert
      (fun p => if p = 5 then some ⟨7, 0, 0, 0, 0, "x", none⟩ else none)
      ⟨4096, [100], 1⟩ 5 [] [] 5 inv_nil rfl rfl).2.1⟩

/-- C7: every freshly read process is stored with
`cpuFraction = (userTicks + kernelTicks) / (ticksSinceBoot − startTicks)`,
where `ticksSinceBoot` is the clock source's total tick count divided by
the number of processor cores. -/
theorem claim7_cpu_formula (recs : Nat → Option PRec) (c : Ctx)
    (fuel : Nat) (s s₂ : Store) (pid : Nat) (r : PRec) (hinv : Inv s)
    (hpid : lookupS s pid = none) (hrec : recs pid = some r)
    (h : readProc recs c fuel s pid = .ok s₂) :
    ∃ e, lookupS s₂ pid = some e ∧
      e.cpu = ((r.utime + r.stime : Int) : ℚ)
        / ((ticksSinceBoot c : ℚ) - (r.starttime : ℚ)) ∧
      ticksSinceBoot c = Int.tdiv c.clockTicks.sum c.numCPU := by
  have H := readProc_stack recs c fuel s pid [pid] hinv (by simp)
    (by intro i hi; simp at hi)
    (by intro i hi hi0; simp at hi; omega)
    (by intro t ht; rw [show t = pid by simpa using ht]; exact hpid)
  obtain ⟨_, _, ⟨r', hr', hlook⟩, _⟩ := H.1 s₂ h
  rw [hrec] at hr'
  have hrr : r = r' := Option.some.inj hr'
  subst hrr
  exact ⟨mkEntry c r, hlook, rfl, rfl⟩

/-- Witness for C7 at a concrete root process. -/
theorem claim7_cpu_formula_witness :
    readProc (fun p => if p = 1 then some ⟨0, 3, 5, 7, 2, "w", none⟩
        else none) ⟨4096, [30, 10], 4⟩ 3 [] 1
      = .ok (insertS [] 1 (mkEntry ⟨4096, [30, 10], 4⟩
          ⟨0, 3, 5, 7, 2, "w", none⟩)) ∧
    (∃ e, lookupS (insertS [] 1 (mkEntry ⟨4096, [30, 10], 4⟩
          ⟨0, 3, 5, 7, 2, "w", none⟩)) 1 = some e ∧
      e.cpu = (((5 : Int) + 7 : Int) : ℚ)
        / ((ticksSinceBoot ⟨4096, [30, 10], 4⟩ : ℚ) - ((2 : Int) : ℚ)) ∧
      ticksSinceBoot ⟨4096, [30, 10], 4⟩
        = Int.tdiv ([30, 10] : List Int).sum 4) :=
  ⟨rfl,
   claim7_cpu_formula
     (fun p => if p = 1 then some ⟨0, 3, 5, 7, 2, "w", none⟩ else none)
     ⟨4096, [30, 10], 4⟩ 3 []
     (insertS [] 1 (mkEntry ⟨4096, [30, 10], 4⟩ ⟨0, 3, 5, 7, 2, "w", none⟩))
     1 ⟨0, 3, 5, 7, 2, "w", none⟩ inv_nil rfl rfl rfl⟩

/-- C8 (amended): the computed cpuFraction is non-negative provided the
tick counts are non-negative and the process-start tick count is strictly
below `ticksSinceBoot`; when the start ticks exceed `ticksSinceBoot`
(routine on multi-core machines, since the clock total is divided by the
core count) the denominator — and with positive tick counts the whole
fraction — is negative. -/
theorem claim8_cpu_nonneg (c : Ctx) (r : PRec)
    (hu : 0 ≤ r.utime) (hs : 0 ≤ r.stime)
    (hlt : r.starttime < ticksSinceBoot c) :
    0 ≤ cpuFrac c r := by
  unfold cpuFrac
  apply div_nonneg
  · have : (0 : Int) ≤ r.utime + r.stime := by omega
    exact_mod_cast this
  · rw [sub_nonneg]
    exact_mod_cast le_of_lt hlt

/-- Witness for C8 (amended). -/
theorem claim8_cpu_nonneg_witness :
    (0 : Int) ≤ 1 ∧ (0 : Int) ≤ 1 ∧
    (0 : Int) < ticksSinceBoot ⟨4096, [8], 2⟩ ∧
    0 ≤ cpuFrac ⟨4096, [8], 2⟩ ⟨0, 0, 1, 1, 0, "w", none⟩ :=
  ⟨by decide, by decide, by decide,
   claim8_cpu_nonneg ⟨4096, [8], 2⟩ ⟨0, 0, 1, 1, 0, "w", none⟩
     (by decide) (by decide) (by decide)⟩

/-- C8 as stated is false: with one tick of CPU use, a start time of 2
ticks and a per-core boot tick estimate of 1, the computed fraction is
`1 / (1 − 2) = −1 < 0`. -/
theorem claim8_counterexample :
    cpuFrac ⟨4096, [1], 1⟩ ⟨0, 0, 1, 0, 2, "n", none⟩ < 0 := by
  have h1 : ticksSinceBoot ⟨4096, [1], 1⟩ = 1 := by decide
  unfold cpuFrac
  rw [h1]
  norm_num

/-- A pid whose record is gone (`NotFound`) never changes the store:
either it was already present (immediate return) or the record fetch
fails before any mutation. -/
theorem readProc_store_notfound (recs : Nat → Option PRec) (c : Ctx)
    (fuel : Nat) (s : Store) (b : Nat) (hb : recs b = none) :
    (readProc recs c fuel s b).store = s := by
  cases fuel with
  | zero => rfl
  | succ m =>
    cases hl : lookupS s b with
    | some e => simp [readProc, hl, RRes.store]
    | none => simp [readProc, hl, hb, RRes.store]

/-- Enumerating over a vanished pid is a no-op: the enumeration with the
failing pid produces exactly the store of the enumeration without it. -/
theorem readProcs_skip (recs : Nat → Option PRec) (c : Ctx) (fuel : Nat)
    (b : Nat) (hb : recs b = none) :
    ∀ (xs ys : List Nat) (s : Store),
      readProcs recs c fuel (xs ++ b :: ys) s
        = readProcs recs c fuel (xs ++ ys) s := by
  intro xs
  induction xs with
  | nil =>
    intro ys s
    simp only [List.nil_append, readProcs, List.foldl]
    rw [readProc_store_notfound recs c fuel s b hb]
  | cons x xs ih =>
    intro ys s
    simp only [List.cons_append, readProcs, List.foldl] at ih ⊢
    exact ih ys _

/-- A resolvable pid with fuel beyond its chain depth resolves
successfully and lands in the store. -/
theorem resolvable_ok (recs : Nat → Option PRec) (c : Ctx) :
    ∀ (n p : Nat), ResolvableN recs p n →
    ∀ (s : Store) (fuel : Nat), Inv s → n < fuel →
      ∃ s', readProc recs c fuel s p = .ok s' ∧ p ∈ keysS s' := by
  intro n p h
  induction h with
  | @root p r hrec hpp0 =>
    intro s fuel hinv hn
    cases fuel with
    | zero => omega
    | succ m =>
      cases hl : lookupS s p with
      | some e =>
        exact ⟨s, by simp [readProc, hl], mem_keysS_of_lookupS hl⟩
      | none =>
        refine ⟨insertS s p (mkEntry c r), ?_, ?_⟩
        · simp [readProc, hl, hrec, hpp0]
        · rw [keysS_insertS]
          simp
  | @step p r n hrec hpp hres ih =>
    intro s fuel hinv hn
    cases fuel with
    | zero => omega
    | succ m =>
      cases hl : lookupS s p with
      | some e =>
        exact ⟨s, by simp [readProc, hl], mem_keysS_of_lookupS hl⟩
      | none =>
        cases hlp : lookupS s r.ppid with
        | some pe =>
          refine ⟨insertS (addChild s r.ppid p) p (mkEntry c r), ?_, ?_⟩
          · simp [readProc, hl, hrec, hpp, hlp]
          · rw [keysS_insertS]
            simp
        | none =>
          obtain ⟨s₃, hok, hmem₃⟩ := ih s m hinv (by omega)
          refine ⟨insertS (addChild s₃ r.ppid p) p (mkEntry c r), ?_, ?_⟩
          · simp [readProc, hl, hrec, hpp, hlp, hok]
          · rw [keysS_insertS]
            simp

/-- Store growth preserves key membership. -/
theorem keysS_sub_of_SubS {s s' : Store} (h : SubS s s') :
    ∀ p ∈ keysS s, p ∈ keysS s' := by
  intro p hp
  obtain ⟨e, he⟩ := lookupS_isSome_of_mem hp
  obtain ⟨tl, htl⟩ := h p e he
  exact mem_keysS_of_lookupS htl

/-- Every enumerated pid whose ancestor chain is resolvable within the
fuel ends up in the store, whatever else fails around it. -/
theorem readProcs_mem (recs : Nat → Option PRec) (c : Ctx) (fuel : Nat) :
    ∀ (pids : List Nat) (s : Store), Inv s →
      ∀ p n, p ∈ pids → ResolvableN recs p n → n < fuel →
        p ∈ keysS (readProcs recs c fuel pids s) := by
  intro pids
  induction pids with
  | nil =>
    intro s _ p n hp
    simp at hp
  | cons x xs ih =>
    intro s hinv p n hp hres hn
    have hstep : readProcs recs c fuel (x :: xs) s
        = readProcs recs c fuel xs ((readProc recs c fuel s x).store) := by
      simp [readProcs]
    rw [hstep]
    have hinv' := (readProc_store_inv recs c fuel s x hinv).1
    rcases List.mem_cons.mp hp with rfl | hxs
    · obtain ⟨s', hok, hmem⟩ := resolvable_ok recs c n p hres s fuel hinv hn
      have hst : (readProc recs c fuel s p).store = s' := by
        rw [hok]
        rfl
      rw [hst] at hinv' ⊢
      have hsub := (readProcs_inv recs c fuel xs s' hinv').2
      exact keysS_sub_of_SubS hsub p hmem
    · exact ih _ hinv' p n hxs hres hn

/-- Trees extracted from a built store are fresh: no aggregate computed. -/
theorem toTree_fresh (s : Store) : ∀ (d p : Nat),
    fresh (toTree s p d) = true := by
  intro d
  induction d with
  | zero =>
    intro p
    simp [toTree, fresh, freshKids]
  | succ d ih =>
    intro p
    simp only [toTree]
    cases hl : lookupS s p with
    | none => simp [fresh, freshKids]
    | some e =>
      have hkids : ∀ l : List Nat,
          freshKids (l.map (fun q => toTree s q d)) = true := by
        intro l
        induction l with
        | nil => rfl
        | cons a l ihl => simp [freshKids, ih a, ihl]
      simp [fresh, hkids]

/-- C6: a `NotFound` pid during enumeration is not propagated — the
resulting store is exactly the store of the enumeration without that pid;
every other pid whose ancestor chain resolves within the fuel is still
inserted; the store still satisfies the linking invariant; and subtree
aggregation over any tree extracted from the partial store is still
correct (first call returns the subtree sum). -/
theorem claim6_partial_failure (recs : Nat → Option PRec) (c : Ctx)
    (fuel : Nat) (b : Nat) (xs ys : List Nat) (hb : recs b = none) :
    readProcs recs c fuel (xs ++ b :: ys) []
        = readProcs recs c fuel (xs ++ ys) [] ∧
    (∀ p n, p ∈ xs ++ ys → ResolvableN recs p n → n < fuel →
      p ∈ keysS (readProcs recs c fuel (xs ++ ys) [])) ∧
    Inv (readProcs recs c fuel (xs ++ b :: ys) []) ∧
    (∀ p d,
      (calcAccumRSS (toTree (readProcs recs c fuel (xs ++ b :: ys) [])
          p d)).1
        = sumRss (toTree (readProcs recs c fuel (xs ++ b :: ys) []) p d) ∧
      (calcAccumCPU (toTree (readProcs recs c fuel (xs ++ b :: ys) [])
          p d)).1
        = sumCpu (toTree (readProcs recs c fuel (xs ++ b :: ys) []) p d)) := by
  refine ⟨readProcs_skip recs c fuel b hb xs ys [], ?_, ?_, ?_⟩
  · intro p n hp hres hn
    exact readProcs_mem recs c fuel (xs ++ ys) [] inv_nil p n hp hres hn
  · exact (readProcs_inv recs c fuel (xs ++ b :: ys) [] inv_nil).1
  · intro p d
    exact ⟨calcAccumRSS_fst_of_fresh _ (toTree_fresh _ d p),
           calcAccumCPU_fst_of_fresh _ (toTree_fresh _ d p)⟩

/-- Witness for C6: pid 9 has vanished; pids 1 ← 2 still resolve. -/
theorem claim6_partial_failure_witness :
    (fun p => if p = 1 then some (⟨0, 10, 0, 0, 0, "init", none⟩ : PRec)
      else if p = 2 then some ⟨1, 20, 0, 0, 0, "child", none⟩
      else none) 9 = none ∧
    (2 : Nat) ∈ [2] ∧ (1 : Nat) < 5 ∧
    readProcs
        (fun p => if p = 1 then some ⟨0, 10, 0, 0, 0, "init", none⟩
          else if p = 2 then some ⟨1, 20, 0, 0, 0, "child", none⟩
          else none) ⟨4096, [100], 1⟩ 5 ([2] ++ 9 :: []) []
      = readProcs
        (fun p => if p = 1 then some ⟨0, 10, 0, 0, 0, "init", none⟩
          else if p = 2 then some ⟨1, 20, 0, 0, 0, "child", none⟩
          else none) ⟨4096, [100], 1⟩ 5 ([2] ++ []) [] ∧
    (2 : Nat) ∈ keysS (readProcs
        (fun p => if p = 1 then some ⟨0, 10, 0, 0, 0, "init", none⟩
          else if p = 2 then some ⟨1, 20, 0, 0, 0, "child", none⟩
          else none) ⟨4096, [100], 1⟩ 5 ([2] ++ []) []) :=
  ⟨rfl, by decide, by decide,
   (claim6_partial_failure
      (fun p => if p = 1 then some ⟨0, 10, 0, 0, 0, "init", none⟩
        else if p = 2 then some ⟨1, 20, 0, 0, 0, "child", none⟩
        else none) ⟨4096, [100], 1⟩ 5 9 [2] [] rfl).1,
   (claim6_partial_failure
      (fun p => if p = 1 then some ⟨0, 10, 0, 0, 0, "init", none⟩
        else if p = 2 then some ⟨1, 20, 0, 0, 0, "child", none⟩
        else none) ⟨4096, [100], 1⟩ 5 9 [2] [] rfl).2.1 2 1 (by decide)
     (ResolvableN.step rfl (by decide) (ResolvableN.root rfl rfl))
     (by decide)⟩

theorem flatten_map_extract {α β : Type} (f : α → List β) (l : List α)
    (a : α) (h : a ∈ l) :
    ∃ pre post, (l.map f).flatten = pre ++ f a ++ post := by
  obtain ⟨l₁, l₂, rfl⟩ := List.append_of_mem h
  exact ⟨(l₁.map f).flatten, (l₂.map f).flatten, by simp⟩

theorem mem_enum_of_mem {α : Type} (l : List α) (a : α) (h : a ∈ l) :
    ∃ i, (i, a) ∈ l.enum := by
  obtain ⟨i, hi, hgi⟩ := List.mem_iff_getElem.mp h
  refine ⟨i, ?_⟩
  rw [List.mk_mem_enum_iff_getElem?]
  rw [List.getElem?_eq_getElem hi, hgi]

/-- C9: in the fancy rendering, (a) the root's line carries no leading
connector, no dashes and an empty prefix; (b) every node's own line is
marked with the `╤` joint exactly when the node has children, so parents
and leaves get distinct glyphs; (c) each (sorted) child's block is
rendered inside the output with the indentation prefix extended by the
bar, one space per character of the parent's displayed name, and the pad;
(d) that extension lengthens the prefix by exactly the parent name's
printed width plus the fixed connector padding, aligning columns under
variable-length names. -/
theorem claim9_fancy_render (fmtSize : Int → String) (fmtPct : ℚ → String)
    (opts : ROpts) (t : PTree) :
    (∃ l rest, printFancyRoot fmtSize fmtPct opts t = l :: rest ∧
      l.pfx = "" ∧ l.conn = "" ∧ l.dashes = "" ∧ l.pname = t.nameOf ∧
      l.joint = decide (0 < t.childrenOf.length)) ∧
    (∀ pfx bar conn, ∃ l rest,
      printFancyTree fmtSize fmtPct opts t pfx bar conn = l :: rest ∧
      l.joint = decide (0 < t.childrenOf.length) ∧ l.pfx = pfx ∧
      l.conn = conn ∧ l.pname = t.nameOf) ∧
    (∀ pfx bar conn,
      ∀ cm ∈ stableSortGo
          (fun a b => sortLess opts.sortFunc opts.reverse a.1 b.1)
          t.childrenOf.attach,
        ∃ i, ∃ _ : (i, cm) ∈ (stableSortGo
            (fun a b => sortLess opts.sortFunc opts.reverse a.1 b.1)
            t.childrenOf.attach).enum, ∃ pre post,
          (printFancyTree fmtSize fmtPct opts t pfx bar conn).tail
            = pre ++ printFancyTree fmtSize fmtPct opts cm.1
                (pfx ++ bar
                  ++ String.mk (List.replicate t.nameOf.length ' ')
                  ++ (if pfx = "" then " " else "   "))
                (if i = (stableSortGo
                    (fun a b => sortLess opts.sortFunc opts.reverse a.1 b.1)
                    t.childrenOf.attach).length - 1 then " " else "│")
                (if i = (stableSortGo
                    (fun a b => sortLess opts.sortFunc opts.reverse a.1 b.1)
                    t.childrenOf.attach).length - 1 then "└" else "├")
              ++ post) ∧
    (∀ pfx bar : String,
      (pfx ++ bar ++ String.mk (List.replicate t.nameOf.length ' ')
        ++ (if pfx = "" then " " else "   ")).length
        = pfx.length + bar.length + t.nameOf.length
          + (if pfx = "" then 1 else 3)) := by
  cases t with
  | node pid ppid rss cpu aR aC name cs =>
    refine ⟨?_, ?_, ?_, ?_⟩
    · simp only [printFancyRoot, printFancyTree]
      refine ⟨_, _, rfl, rfl, rfl, by simp, rfl, rfl⟩
    · intro pfx bar conn
      simp only [printFancyTree]
      exact ⟨_, _, rfl, rfl, rfl, rfl, rfl⟩
    · intro pfx bar conn cm hcm
      simp only [PTree.childrenOf] at hcm ⊢
      obtain ⟨i, hienum⟩ := mem_enum_of_mem _ cm hcm
      refine ⟨i, hienum, ?_⟩
      simp only [printFancyTree, List.tail_cons]
      exact flatten_map_extract _ _ _ (List.mem_attach _ ⟨(i, cm), hienum⟩)
    · intro pfx bar
      simp only [PTree.nameOf, String.length_append]
      have hmk : (String.mk (List.replicate name.length ' ')).length
          = name.length := by
        show (List.replicate name.length ' ').length = name.length
        simp
      rw [hmk]
      have h1 : (" " : String).length = 1 := rfl
      have h3 : ("   " : String).length = 3 := rfl
      by_cases h : pfx = "" <;> simp [h, h1, h3]

/-- Witness for C9 at a concrete two-node tree: the sorted-children
membership hypothesis is discharged for the single child. -/
theorem claim9_fancy_render_witness :
    ((⟨PTree.node 2 1 3 0 0 0 "c" [], List.Mem.head []⟩ :
        {x // x ∈ (PTree.node 1 0 5 0 0 0 "ab"
          [PTree.node 2 1 3 0 0 0 "c" []]).childrenOf})
      ∈ stableSortGo
        (fun a b => sortLess (fun _ _ => false) false a.1 b.1)
        (PTree.node 1 0 5 0 0 0 "ab"
          [PTree.node 2 1 3 0 0 0 "c" []]).childrenOf.attach) ∧
    (∃ i, ∃ _ : (i, (⟨PTree.node 2 1 3 0 0 0 "c" [], List.Mem.head []⟩ :
          {x // x ∈ (PTree.node 1 0 5 0 0 0 "ab"
            [PTree.node 2 1 3 0 0 0 "c" []]).childrenOf}))
        ∈ (stableSortGo
          (fun a b => sortLess (fun _ _ => false) false a.1 b.1)
          (PTree.node 1 0 5 0 0 0 "ab"
            [PTree.node 2 1 3 0 0 0 "c" []]).childrenOf.attach).enum,
      ∃ pre post,
        (printFancyTree (fun _ => "") (fun _ => "")
            ⟨true, true, false, fun _ _ => false⟩
            (PTree.node 1 0 5 0 0 0 "ab"
              [PTree.node 2 1 3 0 0 0 "c" []]) "" "" "").tail
          = pre ++ printFancyTree (fun _ => "") (fun _ => "")
              ⟨true, true, false, fun _ _ => false⟩
              (PTree.node 2 1 3 0 0 0 "c" [])
              ("" ++ "" ++ String.mk (List.replicate
                  (PTree.node 1 0 5 0 0 0 "ab"
                    [PTree.node 2 1 3 0 0 0 "c" []]).nameOf.length ' ')
                ++ (if ("" : String) = "" then " " else "   "))
              (if i = (stableSortGo
                  (fun a b => sortLess (fun _ _ => false) false a.1 b.1)
                  (PTree.node 1 0 5 0 0 0 "ab"
                    [PTree.node 2 1 3 0 0 0 "c" []]).childrenOf.attach).length
                  - 1 then " " else "│")
              (if i = (stableSortGo
                  (fun a b => sortLess (fun _ _ => false) false a.1 b.1)
                  (PTree.node 1 0 5 0 0 0 "ab"
                    [PTree.node 2 1 3 0 0 0 "c" []]).childrenOf.attach).length
                  - 1 then "└" else "├")
            ++ post) :=
  ⟨List.Mem.head [], (claim9_fancy_render (fun _ => "") (fun _ => "")
      ⟨true, true, false, fun _ _ => false⟩
      (PTree.node 1 0 5 0 0 0 "ab" [PTree.node 2 1 3 0 0 0 "c" []])).2.2.1
    "" "" "" ⟨PTree.node 2 1 3 0 0 0 "c" [], List.Mem.head []⟩
    (List.Mem.head [])⟩

end Pree
